import Mathlib

/-!
Verification of the `bimap` container (files `bimap.h` and `intrusive_tree.h`).

The container is a bidirectional map built from two treaps (randomized binary
search trees) that share their nodes: every pair `(l, r)` is one `node_t`
record that is simultaneously linked into a tree ordered by `l` and a tree
ordered by `r`.

Embedding choices:
* A treap is an inductive binary tree `Treap α`; the C++ parent pointers and the
  sentinel `fake_node` are implicit (the sentinel / `end()` iterator is
  modelled by `none`). In-order iteration from `begin()` to `end()` is the
  list `Treap.toList`.
* The element type `α` is abstract; the key and priority stored in a `d_node`
  are extracted by functions `k pr : α → Nat`, so the same operations serve the
  left tree (keyed by the left value) and the right tree (keyed by the right
  value). The C++ comparator `std::less` becomes `<` on `Nat`.
* Random priorities (`rand_gen()` in the source) become explicit parameters:
  every theorem quantifies over them.
* `bitree::erase` receives an iterator and unlinks exactly the node it points
  at; under the BST invariant that node is the unique node carrying its key,
  so the embedding locates it by its key.
-/

set_option maxHeartbeats 1000000

/-- Binary tree of elements of `α`; models the linked node structure of
`intrusive_tree::bitree` (fields `left`/`right` of `p_node`). -/
inductive Treap (α : Type) where
  | leaf
  | node (l : Treap α) (v : α) (r : Treap α)
deriving DecidableEq

/-- In-order traversal: the sequence produced by iterating from `begin()` to
`end()` with the iterator increment of `intrusive_tree.h`. -/
def Treap.toList {α : Type} : Treap α → List α
  | .leaf => []
  | .node l v r => toList l ++ v :: toList r

/-- Number of nodes of the tree. -/
def Treap.size {α : Type} : Treap α → Nat
  | .leaf => 0
  | .node l _ r => size l + size r + 1

/-- `bitree::split(t, key, l, r)`: partition `t` into the nodes whose key is
not greater than `key` (first component) and those whose key is greater
(second component), following the source recursion on `cmp(key, t->key)`. -/
def Treap.split {α : Type} (k : α → Nat) (key : Nat) : Treap α → Treap α × Treap α
  | .leaf => (.leaf, .leaf)
  | .node tl v tr =>
    if key < k v then
      ((split k key tl).1, .node (split k key tl).2 v tr)
    else
      (.node tl v (split k key tr).1, (split k key tr).2)

/-- Inner `bitree::insert(p_node*& t, p_node* it)`: descend comparing
priorities; at the first subtree whose root has smaller priority than the new
node, split that subtree by the new key and make the parts the new node's
children; otherwise recurse into the child given by key order. -/
def Treap.insert {α : Type} (k pr : α → Nat) (x : α) : Treap α → Treap α
  | .leaf => .node .leaf x .leaf
  | .node tl v tr =>
    if pr v < pr x then
      .node ((Treap.split k (k x) (.node tl v tr)).1) x
        ((Treap.split k (k x) (.node tl v tr)).2)
    else if k x < k v then
      .node (insert k pr x tl) v tr
    else
      .node tl v (insert k pr x tr)

/-- `bitree::merge(t, l, r)`: combine two trees, the root with the larger
priority going on top, as in the source. -/
def Treap.merge {α : Type} (pr : α → Nat) : Treap α → Treap α → Treap α
  | .leaf, r => r
  | .node ll lv lr, .leaf => .node ll lv lr
  | .node ll lv lr, .node rl rv rr =>
    if pr rv < pr lv then
      .node ll lv (merge pr lr (.node rl rv rr))
    else
      .node (merge pr (.node ll lv lr) rl) rv rr
termination_by l r => l.size + r.size
decreasing_by
  · simp [Treap.size]; omega
  · simp [Treap.size]; omega

/-- `bitree::erase(it)` at the (unique, under the BST invariant) node carrying
`key`: replace that node by the merge of its two children. -/
def Treap.erase {α : Type} (k pr : α → Nat) (key : Nat) : Treap α → Treap α
  | .leaf => .leaf
  | .node tl v tr =>
    if key < k v then .node (erase k pr key tl) v tr
    else if k v < key then .node tl v (erase k pr key tr)
    else Treap.merge pr tl tr

/-- `bitree::find(x)`: standard BST search; `none` models the `end()`
iterator. -/
def Treap.find {α : Type} (k : α → Nat) (key : Nat) : Treap α → Option α
  | .leaf => none
  | .node tl v tr =>
    if key < k v then find k key tl
    else if k v < key then find k key tr
    else some v

/-- `bitree::lower_bound(x)`: the `buf` pointer of the source loop starts at
the sentinel (`none`) and is updated to every node whose key is not less than
`x` before descending left. -/
def Treap.lowerBound {α : Type} (k : α → Nat) (key : Nat) : Treap α → Option α
  | .leaf => none
  | .node tl v tr =>
    if k v < key then lowerBound k key tr
    else some ((lowerBound k key tl).getD v)

/-- `bitree::upper_bound(x)`: same loop with the test `cmp(x, n->key)`. -/
def Treap.upperBound {α : Type} (k : α → Nat) (key : Nat) : Treap α → Option α
  | .leaf => none
  | .node tl v tr =>
    if key < k v then some ((upperBound k key tl).getD v)
    else upperBound k key tr

/-- BST invariant of one tree (the structural part of `bitree`'s contract):
at every node, all keys of the left subtree are smaller and all keys of the
right subtree are larger. -/
def Treap.isBST {α : Type} (k : α → Nat) : Treap α → Bool
  | .leaf => true
  | .node tl v tr =>
    tl.toList.all (fun x => k x < k v) && tr.toList.all (fun x => k v < k x)
      && isBST k tl && isBST k tr

/-! ## Basic facts about the traversal and the BST invariant -/

theorem Treap.toList_leaf {α : Type} : (Treap.leaf : Treap α).toList = [] := rfl

theorem Treap.toList_node {α : Type} (tl : Treap α) (v : α) (tr : Treap α) :
    (Treap.node tl v tr).toList = tl.toList ++ v :: tr.toList := rfl

theorem Treap.isBST_node_iff {α : Type} (k : α → Nat) (tl : Treap α) (v : α) (tr : Treap α) :
    (Treap.node tl v tr).isBST k = true ↔
      (∀ x ∈ tl.toList, k x < k v) ∧ (∀ x ∈ tr.toList, k v < k x) ∧
        tl.isBST k = true ∧ tr.isBST k = true := by
  simp [Treap.isBST, List.all_eq_true, Bool.and_eq_true, and_assoc]

/-- Under the BST invariant the traversal is strictly increasing in the key. -/
theorem Treap.sorted_toList {α : Type} (k : α → Nat) (t : Treap α) (h : t.isBST k = true) :
    t.toList.Pairwise (fun a b => k a < k b) := by
  induction t with
  | leaf => simp [Treap.toList]
  | node tl v tr ihl ihr =>
    rw [Treap.isBST_node_iff] at h
    obtain ⟨hl, hr, bl, br⟩ := h
    rw [Treap.toList_node, List.pairwise_append]
    refine ⟨ihl bl, ?_, ?_⟩
    · rw [List.pairwise_cons]
      exact ⟨hr, ihr br⟩
    · intro a ha b hb
      rcases List.mem_cons.mp hb with rfl | hb
      · exact hl a ha
      · exact Nat.lt_trans (hl a ha) (hr b hb)

/-- In a strictly key-sorted list, elements are determined by their key. -/
theorem keyInj_of_pairwise {α : Type} {k : α → Nat} {l : List α}
    (h : l.Pairwise (fun a b => k a < k b)) :
    ∀ a ∈ l, ∀ b ∈ l, k a = k b → a = b := by
  induction l with
  | nil => simp
  | cons x xs ih =>
    rw [List.pairwise_cons] at h
    intro a ha b hb hab
    rcases List.mem_cons.mp ha with h1 | h1
    · rcases List.mem_cons.mp hb with h2 | h2
      · rw [h1, h2]
      · subst h1
        exact absurd hab (Nat.ne_of_lt (h.1 b h2))
    · rcases List.mem_cons.mp hb with h2 | h2
      · subst h2
        exact absurd hab.symm (Nat.ne_of_lt (h.1 a h1))
      · exact ih h.2 a h1 b h2 hab

theorem nodup_of_pairwise_keys {α : Type} {k : α → Nat} {l : List α}
    (h : l.Pairwise (fun a b => k a < k b)) : l.Nodup :=
  h.imp fun hlt => fun he => absurd (he ▸ hlt) (Nat.lt_irrefl _)

/-! ## Split -/

theorem Treap.toList_split_perm {α : Type} (k : α → Nat) (key : Nat) (t : Treap α) :
    List.Perm ((t.split k key).1.toList ++ (t.split k key).2.toList) t.toList := by
  induction t with
  | leaf => simp [Treap.split, Treap.toList]
  | node tl v tr ihl ihr =>
    by_cases h : key < k v
    · simp only [Treap.split, if_pos h, Treap.toList_node]
      rw [← List.append_assoc]
      exact ihl.append_right _
    · simp only [Treap.split, if_neg h, Treap.toList_node]
      rw [List.append_assoc, List.cons_append]
      exact (ihr.cons v).append_left tl.toList

theorem Treap.mem_split_fst {α : Type} {k : α → Nat} {key : Nat} {t : Treap α} {x : α}
    (h : x ∈ (t.split k key).1.toList) : x ∈ t.toList :=
  (Treap.toList_split_perm k key t).mem_iff.mp (List.mem_append.mpr (Or.inl h))

theorem Treap.mem_split_snd {α : Type} {k : α → Nat} {key : Nat} {t : Treap α} {x : α}
    (h : x ∈ (t.split k key).2.toList) : x ∈ t.toList :=
  (Treap.toList_split_perm k key t).mem_iff.mp (List.mem_append.mpr (Or.inr h))

/-- Key bounds and BST preservation of `split`, for a key that does not occur
in the tree (as is the case at every call site, guarded by `find`). -/
theorem Treap.split_spec {α : Type} (k : α → Nat) (key : Nat) (t : Treap α)
    (hbst : t.isBST k = true) (hfresh : ∀ e ∈ t.toList, k e ≠ key) :
    (∀ e ∈ (t.split k key).1.toList, k e < key) ∧
    (∀ e ∈ (t.split k key).2.toList, key < k e) ∧
    (t.split k key).1.isBST k = true ∧ (t.split k key).2.isBST k = true := by
  induction t with
  | leaf => simp [Treap.split, Treap.toList, Treap.isBST]
  | node tl v tr ihl ihr =>
    rw [Treap.isBST_node_iff] at hbst
    obtain ⟨hl, hr, bl, br⟩ := hbst
    have hfv : k v ≠ key := hfresh v (by simp [Treap.toList_node])
    by_cases h : key < k v
    · obtain ⟨s1, s2, b1, b2⟩ := ihl bl
        (fun e he => hfresh e (by simp [Treap.toList_node]; exact Or.inl he))
      simp only [Treap.split, if_pos h]
      refine ⟨s1, ?_, b1, ?_⟩
      · intro e he
        rw [Treap.toList_node] at he
        rcases List.mem_append.mp he with h1 | h2
        · exact s2 e h1
        · rcases List.mem_cons.mp h2 with rfl | h3
          · exact h
          · exact Nat.lt_trans h (hr e h3)
      · rw [Treap.isBST_node_iff]
        refine ⟨?_, hr, b2, br⟩
        intro x hx
        exact hl x (Treap.mem_split_snd hx)
    · have hvk : k v < key := by
        rcases Nat.lt_or_ge (k v) key with h1 | h1
        · exact h1
        · exact absurd (Nat.le_antisymm (Nat.le_of_not_lt h) h1) hfv
      obtain ⟨s1, s2, b1, b2⟩ := ihr br
        (fun e he => hfresh e (by simp [Treap.toList_node]; exact Or.inr (Or.inr he)))
      simp only [Treap.split, if_neg h]
      refine ⟨?_, s2, ?_, b2⟩
      · intro e he
        rw [Treap.toList_node] at he
        rcases List.mem_append.mp he with h1 | h2
        · exact Nat.lt_trans (hl e h1) hvk
        · rcases List.mem_cons.mp h2 with rfl | h3
          · exact hvk
          · exact s1 e h3
      · rw [Treap.isBST_node_iff]
        refine ⟨hl, ?_, bl, b1⟩
        intro x hx
        exact hr x (Treap.mem_split_fst hx)

/-! ## Insert -/

/-- Inserting a node adds exactly that node to the traversal, up to order. -/
theorem Treap.toList_insert_perm {α : Type} (k pr : α → Nat) (x : α) (t : Treap α) :
    List.Perm (t.insert k pr x).toList (x :: t.toList) := by
  induction t with
  | leaf => simp [Treap.insert, Treap.toList]
  | node tl v tr ihl ihr =>
    by_cases h : pr v < pr x
    · simp only [Treap.insert, if_pos h, Treap.toList_node]
      exact List.perm_middle.trans
        ((Treap.toList_split_perm k (k x) (Treap.node tl v tr)).cons x)
    · by_cases h2 : k x < k v
      · simp only [Treap.insert, if_neg h, if_pos h2, Treap.toList_node]
        exact (ihl.append_right _).trans (by simp)
      · simp only [Treap.insert, if_neg h, if_neg h2, Treap.toList_node]
        refine (ihr.cons v).append_left tl.toList |>.trans ?_
        have : List.Perm (tl.toList ++ [v] ++ x :: tr.toList)
            (x :: (tl.toList ++ [v] ++ tr.toList)) := List.perm_middle
        simpa using this

theorem Treap.isBST_insert {α : Type} (k pr : α → Nat) (x : α) (t : Treap α)
    (hbst : t.isBST k = true) (hfresh : ∀ e ∈ t.toList, k e ≠ k x) :
    (t.insert k pr x).isBST k = true := by
  induction t with
  | leaf => simp [Treap.insert, Treap.isBST, Treap.toList]
  | node tl v tr ihl ihr =>
    have hbst' := hbst
    rw [Treap.isBST_node_iff] at hbst'
    obtain ⟨hl, hr, bl, br⟩ := hbst'
    by_cases h : pr v < pr x
    · obtain ⟨s1, s2, b1, b2⟩ := Treap.split_spec k (k x) (Treap.node tl v tr) hbst hfresh
      simp only [Treap.insert, if_pos h]
      rw [Treap.isBST_node_iff]
      exact ⟨s1, s2, b1, b2⟩
    · by_cases h2 : k x < k v
      · simp only [Treap.insert, if_pos h2, if_neg h]
        rw [Treap.isBST_node_iff]
        refine ⟨?_, hr, ?_, br⟩
        · intro e he
          rcases List.mem_cons.mp ((Treap.toList_insert_perm k pr x tl).mem_iff.mp he)
            with h3 | h3
          · rw [h3]; exact h2
          · exact hl e h3
        · exact ihl bl fun e he => hfresh e (by simp [Treap.toList_node]; exact Or.inl he)
      · have h3 : k v < k x := by
          have hne : k v ≠ k x := hfresh v (by simp [Treap.toList_node])
          omega
        simp only [Treap.insert, if_neg h, if_neg h2]
        rw [Treap.isBST_node_iff]
        refine ⟨hl, ?_, bl, ?_⟩
        · intro e he
          rcases List.mem_cons.mp ((Treap.toList_insert_perm k pr x tr).mem_iff.mp he)
            with h4 | h4
          · rw [h4]; exact h3
          · exact hr e h4
        · exact ihr br fun e he =>
            hfresh e (by simp [Treap.toList_node]; exact Or.inr (Or.inr he))

/-! ## Merge -/

/-- Merging concatenates the traversals, whatever the priorities are. -/
theorem Treap.toList_merge {α : Type} (pr : α → Nat) (l r : Treap α) :
    (Treap.merge pr l r).toList = l.toList ++ r.toList := by
  induction l, r using Treap.merge.induct pr with
  | case1 r => simp [Treap.merge, Treap.toList]
  | case2 ll lv lr => simp [Treap.merge, Treap.toList]
  | case3 ll lv lr rl rv rr h ih =>
    rw [Treap.merge, if_pos h, Treap.toList_node, Treap.toList_node, ih]
    simp [Treap.toList_node]
  | case4 ll lv lr rl rv rr h ih =>
    rw [Treap.merge, if_neg h, Treap.toList_node, Treap.toList_node, ih]
    simp [Treap.toList_node]

theorem Treap.isBST_merge {α : Type} (k pr : α → Nat) (l r : Treap α)
    (hsep : ∀ a ∈ l.toList, ∀ b ∈ r.toList, k a < k b)
    (hbl : l.isBST k = true) (hbr : r.isBST k = true) :
    (Treap.merge pr l r).isBST k = true := by
  induction l, r using Treap.merge.induct pr with
  | case1 r => simpa [Treap.merge] using hbr
  | case2 ll lv lr => simpa [Treap.merge] using hbl
  | case3 ll lv lr rl rv rr h ih =>
    rw [Treap.isBST_node_iff] at hbl
    obtain ⟨hll, hlr, bll, blr⟩ := hbl
    rw [Treap.merge, if_pos h, Treap.isBST_node_iff]
    have hmem : ∀ e ∈ (Treap.merge pr lr (Treap.node rl rv rr)).toList,
        e ∈ lr.toList ∨ e ∈ (Treap.node rl rv rr).toList := by
      intro e he
      rw [Treap.toList_merge] at he
      exact List.mem_append.mp he
    refine ⟨hll, ?_, bll, ?_⟩
    · intro e he
      rcases hmem e he with h1 | h1
      · exact hlr e h1
      · exact hsep lv (by simp [Treap.toList_node]) e h1
    · exact ih (fun a ha b hb => hsep a (by simp [Treap.toList_node]; exact Or.inr (Or.inr ha)) b hb)
        blr hbr
  | case4 ll lv lr rl rv rr h ih =>
    rw [Treap.isBST_node_iff] at hbr
    obtain ⟨hrl, hrr, brl, brr⟩ := hbr
    rw [Treap.merge, if_neg h, Treap.isBST_node_iff]
    have hmem : ∀ e ∈ (Treap.merge pr (Treap.node ll lv lr) rl).toList,
        e ∈ (Treap.node ll lv lr).toList ∨ e ∈ rl.toList := by
      intro e he
      rw [Treap.toList_merge] at he
      exact List.mem_append.mp he
    refine ⟨?_, hrr, ?_, brr⟩
    · intro e he
      rcases hmem e he with h1 | h1
      · exact hsep e h1 rv (by simp [Treap.toList_node])
      · exact hrl e h1
    · exact ih (fun a ha b hb => hsep a ha b (by simp [Treap.toList_node]; exact Or.inl hb))
        hbl brl

/-! ## Erase -/

/-- Erasing the node that carries `key` removes exactly the elements with that
key from the traversal (there is at most one, by the BST invariant). -/
theorem Treap.toList_erase {α : Type} (k pr : α → Nat) (key : Nat) (t : Treap α)
    (hbst : t.isBST k = true) :
    (t.erase k pr key).toList = t.toList.filter (fun e => k e ≠ key) := by
  induction t with
  | leaf => simp [Treap.erase, Treap.toList]
  | node tl v tr ihl ihr =>
    rw [Treap.isBST_node_iff] at hbst
    obtain ⟨hl, hr, bl, br⟩ := hbst
    by_cases h1 : key < k v
    · have htr : tr.toList.filter (fun e => k e ≠ key) = tr.toList :=
        (@List.filter_eq_self _ _ tr.toList).mpr
          (fun e he => by have := hr e he; simp; omega)
      simp only [Treap.erase, if_pos h1, Treap.toList_node, ihl bl]
      rw [List.filter_append, List.filter_cons_of_pos (by simp; omega), htr]
    · by_cases h2 : k v < key
      · have htl2 : tl.toList.filter (fun e => k e ≠ key) = tl.toList :=
          (@List.filter_eq_self _ _ tl.toList).mpr
            (fun e he => by have := hl e he; simp; omega)
        simp only [Treap.erase, if_neg h1, if_pos h2, Treap.toList_node, ihr br]
        rw [List.filter_append, List.filter_cons_of_pos (by simp; omega), htl2]
      · have hv : k v = key := by omega
        have htl2 : tl.toList.filter (fun e => k e ≠ key) = tl.toList :=
          (@List.filter_eq_self _ _ tl.toList).mpr
            (fun e he => by have := hl e he; simp; omega)
        have htr : tr.toList.filter (fun e => k e ≠ key) = tr.toList :=
          (@List.filter_eq_self _ _ tr.toList).mpr
            (fun e he => by have := hr e he; simp; omega)
        simp only [Treap.erase, if_neg h1, if_neg h2, Treap.toList_node]
        rw [Treap.toList_merge, List.filter_append,
          List.filter_cons_of_neg (by simp [hv]), htl2, htr]

theorem Treap.isBST_erase {α : Type} (k pr : α → Nat) (key : Nat) (t : Treap α)
    (hbst : t.isBST k = true) :
    (t.erase k pr key).isBST k = true := by
  induction t with
  | leaf => simp [Treap.erase, Treap.isBST]
  | node tl v tr ihl ihr =>
    rw [Treap.isBST_node_iff] at hbst
    obtain ⟨hl, hr, bl, br⟩ := hbst
    by_cases h1 : key < k v
    · simp only [Treap.erase, if_pos h1]
      rw [Treap.isBST_node_iff]
      refine ⟨?_, hr, ihl bl, br⟩
      intro e he
      rw [Treap.toList_erase k pr key tl bl] at he
      exact hl e (List.mem_of_mem_filter he)
    · by_cases h2 : k v < key
      · simp only [Treap.erase, if_neg h1, if_pos h2]
        rw [Treap.isBST_node_iff]
        refine ⟨hl, ?_, bl, ihr br⟩
        intro e he
        rw [Treap.toList_erase k pr key tr br] at he
        exact hr e (List.mem_of_mem_filter he)
      · simp only [Treap.erase, if_neg h1, if_neg h2]
        exact Treap.isBST_merge k pr tl tr
          (fun a ha b hb => Nat.lt_trans (hl a ha) (hr b hb)) bl br

/-! ## Find -/

/-- Under the BST invariant, the tree search returns the first (and only)
element of the traversal whose key equals the searched key. -/
theorem Treap.find_eq {α : Type} (k : α → Nat) (key : Nat) (t : Treap α)
    (hbst : t.isBST k = true) :
    t.find k key = t.toList.find? (fun e => k e == key) := by
  induction t with
  | leaf => simp [Treap.find, Treap.toList]
  | node tl v tr ihl ihr =>
    rw [Treap.isBST_node_iff] at hbst
    obtain ⟨hl, hr, bl, br⟩ := hbst
    rw [Treap.toList_node, List.find?_append]
    by_cases h1 : key < k v
    · have h2 : (v :: tr.toList).find? (fun e => k e == key) = none := by
        rw [List.find?_eq_none]
        intro e he
        rcases List.mem_cons.mp he with rfl | he
        · simp; omega
        · have := hr e he; simp; omega
      simp only [Treap.find, if_pos h1, ihl bl, h2]
      cases tl.toList.find? (fun e => k e == key) <;> rfl
    · have h3 : tl.toList.find? (fun e => k e == key) = none := by
        rw [List.find?_eq_none]
        intro e he
        have := hl e he; simp; omega
      by_cases h2 : k v < key
      · simp only [Treap.find, if_neg h1, if_pos h2, ihr br, h3, Option.none_or]
        rw [List.find?_cons_of_neg _ (by simp; omega)]
      · have hv : k v = key := by omega
        simp only [Treap.find, if_neg h1, if_neg h2, h3, Option.none_or]
        rw [List.find?_cons_of_pos _ (by simp [hv])]

/-- The search misses exactly when no element carries the key. -/
theorem Treap.find_eq_none_iff {α : Type} (k : α → Nat) (key : Nat) (t : Treap α)
    (hbst : t.isBST k = true) :
    t.find k key = none ↔ ∀ e ∈ t.toList, k e ≠ key := by
  rw [Treap.find_eq k key t hbst, List.find?_eq_none]
  constructor
  · intro h e he
    have := h e he
    simpa using this
  · intro h e he
    simpa using h e he

theorem Treap.find_eq_some {α : Type} {k : α → Nat} {key : Nat} {t : Treap α} {v : α}
    (hbst : t.isBST k = true) (h : t.find k key = some v) :
    v ∈ t.toList ∧ k v = key := by
  rw [Treap.find_eq k key t hbst] at h
  refine ⟨List.mem_of_find?_eq_some h, ?_⟩
  have := List.find?_some h
  simpa using this

/-! ## Bounds -/

/-- `lower_bound` returns the first element of the in-order traversal whose
key is not less than the searched key (`none` = the end iterator if none
qualifies). -/
theorem Treap.lowerBound_eq {α : Type} (k : α → Nat) (key : Nat) (t : Treap α)
    (hbst : t.isBST k = true) :
    t.lowerBound k key = t.toList.find? (fun e => ¬ k e < key) := by
  induction t with
  | leaf => simp [Treap.lowerBound, Treap.toList]
  | node tl v tr ihl ihr =>
    rw [Treap.isBST_node_iff] at hbst
    obtain ⟨hl, hr, bl, br⟩ := hbst
    rw [Treap.toList_node, List.find?_append]
    by_cases h1 : k v < key
    · have h3 : tl.toList.find? (fun e => ¬ k e < key) = none := by
        rw [List.find?_eq_none]
        intro e he
        have := hl e he; simp; omega
      simp only [Treap.lowerBound, if_pos h1, ihr br, h3, Option.none_or]
      rw [List.find?_cons_of_neg _ (by simp; omega)]
    · simp only [Treap.lowerBound, if_neg h1, ihl bl]
      cases h4 : tl.toList.find? (fun e => ¬ k e < key) with
      | none =>
        simp only [Option.getD_none, Option.none_or]
        rw [List.find?_cons_of_pos _ (by simp; omega)]
      | some w =>
        simp [Option.getD_some, Option.or]

/-- `upper_bound` returns the first element of the in-order traversal whose
key is strictly greater than the searched key. -/
theorem Treap.upperBound_eq {α : Type} (k : α → Nat) (key : Nat) (t : Treap α)
    (hbst : t.isBST k = true) :
    t.upperBound k key = t.toList.find? (fun e => key < k e) := by
  induction t with
  | leaf => simp [Treap.upperBound, Treap.toList]
  | node tl v tr ihl ihr =>
    rw [Treap.isBST_node_iff] at hbst
    obtain ⟨hl, hr, bl, br⟩ := hbst
    rw [Treap.toList_node, List.find?_append]
    by_cases h1 : key < k v
    · simp only [Treap.upperBound, if_pos h1, ihl bl]
      cases h4 : tl.toList.find? (fun e => key < k e) with
      | none =>
        simp only [Option.getD_none, Option.none_or]
        rw [List.find?_cons_of_pos _ (by simp; omega)]
      | some w =>
        simp [Option.getD_some, Option.or]
    · have h3 : tl.toList.find? (fun e => key < k e) = none := by
        rw [List.find?_eq_none]
        intro e he
        have := hl e he; simp; omega
      simp only [Treap.upperBound, if_neg h1, ihr br, h3, Option.none_or]
      rw [List.find?_cons_of_neg _ (by simp; omega)]

/-! ## The bimap (`bimap.h`)

A `node_t` is one allocation holding the left `d_node` (left value plus its
own random priority) and the right `d_node` (right value plus its own random
priority). Both value types are modelled by `Nat` ordered by `<`
(`std::less`); for `at_*_or_default` the default-constructed value is `0`
(playing the role of `""` resp. `0` in the tests). -/

structure PairNode where
  lKey : Nat
  rKey : Nat
  lPri : Nat
  rPri : Nat
deriving DecidableEq

def keyL (n : PairNode) : Nat := n.lKey
def keyR (n : PairNode) : Nat := n.rKey
def priL (n : PairNode) : Nat := n.lPri
def priR (n : PairNode) : Nat := n.rPri

/-- The state of a `bimap`: the two trees (`left_map`, `right_map`) and the
`uint32_t pair_count` member. Both trees store the shared `node_t` records. -/
structure bimap where
  left_map : Treap PairNode
  right_map : Treap PairNode
  pair_count : Nat
deriving DecidableEq

/-- The default-constructed `bimap` (no pairs). -/
def emptyBimap : bimap := ⟨Treap.leaf, Treap.leaf, 0⟩

/-- `bimap::find_left`. -/
def bimap.find_left (b : bimap) (x : Nat) : Option PairNode :=
  b.left_map.find keyL x

/-- `bimap::find_right`. -/
def bimap.find_right (b : bimap) (x : Nat) : Option PairNode :=
  b.right_map.find keyR x

/-- `bimap::insert(left, right)`: if either key is already present the map is
untouched and `end_left()` (here `none`) is returned; otherwise one `node_t`
is allocated — drawing the random priorities `pl`, `pr` — linked into both
trees, and the pair count is incremented. The second component is the
returned left iterator. -/
def bimap.insert (b : bimap) (lv rv pl pr : Nat) : bimap × Option PairNode :=
  if b.find_left lv = none ∧ b.find_right rv = none then
    ({ left_map := b.left_map.insert keyL priL ⟨lv, rv, pl, pr⟩,
       right_map := b.right_map.insert keyR priR ⟨lv, rv, pl, pr⟩,
       pair_count := b.pair_count + 1 }, some ⟨lv, rv, pl, pr⟩)
  else (b, none)

/-- `bimap::erase_left(left_iterator)`: the iterator is the `node_t` it
points at; the node is unlinked from both trees and the pair count is
decremented.  (The returned successor iterator plays no role in the claims.) -/
def bimap.erase_left_it (b : bimap) (n : PairNode) : bimap :=
  { left_map := b.left_map.erase keyL priL n.lKey,
    right_map := b.right_map.erase keyR priR n.rKey,
    pair_count := b.pair_count - 1 }

/-- `bimap::erase_left(left_t const&)`: find then erase; the Bool reports
whether a pair was removed. -/
def bimap.erase_left (b : bimap) (x : Nat) : bimap × Bool :=
  match b.find_left x with
  | none => (b, false)
  | some n => (b.erase_left_it n, true)

/-- `bimap::erase_right(right_iterator)`. -/
def bimap.erase_right_it (b : bimap) (n : PairNode) : bimap :=
  { left_map := b.left_map.erase keyL priL n.lKey,
    right_map := b.right_map.erase keyR priR n.rKey,
    pair_count := b.pair_count - 1 }

/-- `bimap::erase_right(right_t const&)`. -/
def bimap.erase_right (b : bimap) (x : Nat) : bimap × Bool :=
  match b.find_right x with
  | none => (b, false)
  | some n => (b.erase_right_it n, true)

/-- `bimap::at_left`: the paired right value, or `none` for the thrown
`std::out_of_range`. -/
def bimap.at_left (b : bimap) (x : Nat) : Option Nat :=
  (b.find_left x).map keyR

/-- `bimap::at_right`. -/
def bimap.at_right (b : bimap) (x : Nat) : Option Nat :=
  (b.find_right x).map keyL

/-- `bimap::at_left_or_default(key)`: if `key` is on the left, return its
paired value; otherwise `erase_right(right_t{})` then `insert(key, right_t{})`
and return the right value of the returned iterator (`none` would be the
undefined dereference of `end_left()`, which the pre-checks prevent). -/
def bimap.at_left_or_default (b : bimap) (x pl pr : Nat) : bimap × Option Nat :=
  match b.find_left x with
  | some n => (b, some n.rKey)
  | none =>
    let b1 := (b.erase_right 0).1
    let res := b1.insert x 0 pl pr
    (res.1, res.2.map keyR)

/-- `bimap::at_right_or_default(key)`. -/
def bimap.at_right_or_default (b : bimap) (x pl pr : Nat) : bimap × Option Nat :=
  match b.find_right x with
  | some n => (b, some n.lKey)
  | none =>
    let b1 := (b.erase_left 0).1
    let res := b1.insert 0 x pl pr
    (res.1, res.2.map keyL)

/-- `bimap::lower_bound_left`. -/
def bimap.lower_bound_left (b : bimap) (x : Nat) : Option PairNode :=
  b.left_map.lowerBound keyL x

/-- `bimap::upper_bound_left`. -/
def bimap.upper_bound_left (b : bimap) (x : Nat) : Option PairNode :=
  b.left_map.upperBound keyL x

/-- `bimap::lower_bound_right`. -/
def bimap.lower_bound_right (b : bimap) (x : Nat) : Option PairNode :=
  b.right_map.lowerBound keyR x

/-- `bimap::upper_bound_right`. -/
def bimap.upper_bound_right (b : bimap) (x : Nat) : Option PairNode :=
  b.right_map.upperBound keyR x

/-- `bimap::size()` returns `pair_count`. -/
def bimap.size (b : bimap) : Nat := b.pair_count

/-- The loop body of `operator==`: step both maps in L-order while neither is
at its end; compare `*it` on both sides and `*it.flip()` on both sides. -/
def lockstep : List PairNode → List PairNode → Bool
  | a :: as, c :: cs => ((a.lKey == c.lKey) && (a.rKey == c.rKey)) && lockstep as cs
  | _, _ => true

/-- `operator==(bimap const&, bimap const&)`: sizes first, then the lockstep
walk in L-order. -/
def bimap.beq (a b : bimap) : Bool :=
  if a.size ≠ b.size then false
  else lockstep a.left_map.toList b.left_map.toList

/-- Iterating the left side from `begin_left()` to `end_left()` and reading
`(*it, *it.flip())` at every step: the pairs in left-key order.  This is the
abstraction used throughout. -/
def absL (b : bimap) : List (Nat × Nat) :=
  b.left_map.toList.map (fun n => (n.lKey, n.rKey))

/-- The right-side iteration: `( *it, *it.flip() )` for the right iterators,
in right-key order. -/
def absR (b : bimap) : List (Nat × Nat) :=
  b.right_map.toList.map (fun n => (n.rKey, n.lKey))

/-- `bimap::insert_from(other)` of the copy operations: reinsert a list of
pairs (the source's pairs in L-order) via `insert`; `prs i` supplies the two
random priorities drawn for the i-th reinserted pair. -/
def insertFromList (prs : Nat → Nat × Nat) : Nat → List (Nat × Nat) → bimap → bimap
  | _, [], b => b
  | i, p :: rest, b => insertFromList prs (i + 1) rest (b.insert p.1 p.2 (prs i).1 (prs i).2).1

/-- Copy constructor `bimap(bimap const& other)`: member-initializes
`pair_count` with `other.pair_count`, default-constructs both trees, then
runs `insert_from(other)` — whose `insert` calls increment `pair_count`
again, once per reinserted pair. -/
def copyBimap (prs : Nat → Nat × Nat) (other : bimap) : bimap :=
  insertFromList prs 0 (absL other)
    { left_map := Treap.leaf, right_map := Treap.leaf, pair_count := other.pair_count }

/-- Left and right iterators: a valid iterator is the `node_t` it points at,
`none` is the corresponding end iterator (the tree's sentinel). -/
structure left_iterator where
  it : Option PairNode
deriving DecidableEq

structure right_iterator where
  it : Option PairNode
deriving DecidableEq

/-- `left_iterator::flip`: recover the right-side substructure of the same
`node_t` via the fixed structural offset (`static_cast` chain in the
source). -/
def left_iterator.flip (i : left_iterator) : right_iterator := ⟨i.it⟩

/-- `right_iterator::flip`. -/
def right_iterator.flip (i : right_iterator) : left_iterator := ⟨i.it⟩

/-- Well-formedness of a `bimap` state: both trees satisfy the BST invariant
on their respective keys, both trees hold exactly the same `node_t` records,
and `pair_count` counts them. -/
structure WF (b : bimap) : Prop where
  bstL : b.left_map.isBST keyL = true
  bstR : b.right_map.isBST keyR = true
  perm : List.Perm b.left_map.toList b.right_map.toList
  count : b.pair_count = b.left_map.toList.length

/-! ## Preservation of well-formedness -/

theorem wf_empty : WF emptyBimap := by
  constructor <;> simp [emptyBimap, Treap.toList, Treap.isBST]

theorem sortedL (b : bimap) (h : WF b) :
    b.left_map.toList.Pairwise (fun a c => keyL a < keyL c) :=
  Treap.sorted_toList keyL b.left_map h.bstL

theorem sortedR (b : bimap) (h : WF b) :
    b.right_map.toList.Pairwise (fun a c => keyR a < keyR c) :=
  Treap.sorted_toList keyR b.right_map h.bstR

theorem wf_insert (b : bimap) (h : WF b) (lv rv pl pr : Nat) :
    WF (b.insert lv rv pl pr).1 := by
  by_cases hc : b.find_left lv = none ∧ b.find_right rv = none
  · have hfl : ∀ e ∈ b.left_map.toList, keyL e ≠ lv :=
      (Treap.find_eq_none_iff keyL lv b.left_map h.bstL).mp hc.1
    have hfr : ∀ e ∈ b.right_map.toList, keyR e ≠ rv :=
      (Treap.find_eq_none_iff keyR rv b.right_map h.bstR).mp hc.2
    simp only [bimap.insert, if_pos hc]
    constructor
    · exact Treap.isBST_insert keyL priL ⟨lv, rv, pl, pr⟩ b.left_map h.bstL hfl
    · exact Treap.isBST_insert keyR priR ⟨lv, rv, pl, pr⟩ b.right_map h.bstR hfr
    · refine (Treap.toList_insert_perm keyL priL ⟨lv, rv, pl, pr⟩ b.left_map).trans ?_
      refine List.Perm.trans ?_
        (Treap.toList_insert_perm keyR priR ⟨lv, rv, pl, pr⟩ b.right_map).symm
      exact h.perm.cons _
    · rw [(Treap.toList_insert_perm keyL priL ⟨lv, rv, pl, pr⟩ b.left_map).length_eq]
      simp [h.count]
  · simp only [bimap.insert, if_neg hc]
    exact h

theorem wf_erase_left_it (b : bimap) (h : WF b) (n : PairNode)
    (hmem : n ∈ b.left_map.toList) : WF (b.erase_left_it n) := by
  have hmemR : n ∈ b.right_map.toList := h.perm.mem_iff.mp hmem
  have hinjL := keyInj_of_pairwise (sortedL b h)
  have hinjR := keyInj_of_pairwise (sortedR b h)
  have hfl : b.left_map.toList.filter (fun e => keyL e ≠ n.lKey)
      = b.left_map.toList.filter (fun e => e ≠ n) := by
    apply List.filter_congr
    intro e he
    apply decide_eq_decide.mpr
    constructor
    · intro hk he2
      exact hk (by rw [he2]; rfl)
    · intro hne hk
      exact hne (hinjL e he n hmem hk)
  have hfr : b.right_map.toList.filter (fun e => keyR e ≠ n.rKey)
      = b.right_map.toList.filter (fun e => e ≠ n) := by
    apply List.filter_congr
    intro e he
    apply decide_eq_decide.mpr
    constructor
    · intro hk he2
      exact hk (by rw [he2]; rfl)
    · intro hne hk
      exact hne (hinjR e he n hmemR hk)
  constructor
  · exact Treap.isBST_erase keyL priL n.lKey b.left_map h.bstL
  · exact Treap.isBST_erase keyR priR n.rKey b.right_map h.bstR
  · show List.Perm (b.left_map.erase keyL priL n.lKey).toList
      (b.right_map.erase keyR priR n.rKey).toList
    rw [Treap.toList_erase keyL priL n.lKey b.left_map h.bstL,
        Treap.toList_erase keyR priR n.rKey b.right_map h.bstR, hfl, hfr]
    exact h.perm.filter _
  · show b.pair_count - 1 = (b.left_map.erase keyL priL n.lKey).toList.length
    rw [Treap.toList_erase keyL priL n.lKey b.left_map h.bstL, hfl]
    have hnd : b.left_map.toList.Nodup := nodup_of_pairwise_keys (sortedL b h)
    have hfe : b.left_map.toList.filter (fun e => e ≠ n) = b.left_map.toList.erase n := by
      rw [hnd.erase_eq_filter]
      apply List.filter_congr
      intro e he
      simp [bne, decide_not]
      rfl
    rw [hfe, List.length_erase_of_mem hmem, h.count]

theorem wf_erase_right_it (b : bimap) (h : WF b) (n : PairNode)
    (hmem : n ∈ b.right_map.toList) : WF (b.erase_right_it n) :=
  wf_erase_left_it b h n (h.perm.mem_iff.mpr hmem)

theorem wf_erase_left_key (b : bimap) (h : WF b) (x : Nat) : WF (b.erase_left x).1 := by
  cases hf : b.find_left x with
  | none => simpa [bimap.erase_left, hf] using h
  | some n =>
    have hm := (Treap.find_eq_some h.bstL hf).1
    simpa [bimap.erase_left, hf] using wf_erase_left_it b h n hm

theorem wf_erase_right_key (b : bimap) (h : WF b) (x : Nat) : WF (b.erase_right x).1 := by
  cases hf : b.find_right x with
  | none => simpa [bimap.erase_right, hf] using h
  | some n =>
    have hm := (Treap.find_eq_some h.bstR hf).1
    simpa [bimap.erase_right, hf] using wf_erase_right_it b h n hm

/-! ## Abstraction helpers -/

/-- The left keys present in the container, in left order. -/
def lKeys (b : bimap) : List Nat := b.left_map.toList.map keyL

/-- The right keys present in the container, in right order. -/
def rKeys (b : bimap) : List Nat := b.right_map.toList.map keyR

theorem find_left_none_iff_lKeys (b : bimap) (h : b.left_map.isBST keyL = true) (x : Nat) :
    b.find_left x = none ↔ x ∉ lKeys b := by
  rw [bimap.find_left, Treap.find_eq_none_iff keyL x b.left_map h]
  constructor
  · intro h1 hx
    obtain ⟨e, he, hee⟩ := List.mem_map.mp hx
    exact h1 e he hee
  · intro h1 e he hee
    exact h1 (List.mem_map.mpr ⟨e, he, hee⟩)

theorem find_right_none_iff_rKeys (b : bimap) (h : b.right_map.isBST keyR = true) (x : Nat) :
    b.find_right x = none ↔ x ∉ rKeys b := by
  rw [bimap.find_right, Treap.find_eq_none_iff keyR x b.right_map h]
  constructor
  · intro h1 hx
    obtain ⟨e, he, hee⟩ := List.mem_map.mp hx
    exact h1 e he hee
  · intro h1 e he hee
    exact h1 (List.mem_map.mpr ⟨e, he, hee⟩)

theorem absL_insert_perm (b : bimap) (lv rv pl pr : Nat)
    (hc : b.find_left lv = none ∧ b.find_right rv = none) :
    List.Perm (absL (b.insert lv rv pl pr).1) ((lv, rv) :: absL b) := by
  simp only [bimap.insert, if_pos hc, absL]
  have := (Treap.toList_insert_perm keyL priL ⟨lv, rv, pl, pr⟩ b.left_map).map
    (fun n => (n.lKey, n.rKey))
  simpa using this

theorem absR_insert_perm (b : bimap) (lv rv pl pr : Nat)
    (hc : b.find_left lv = none ∧ b.find_right rv = none) :
    List.Perm (absR (b.insert lv rv pl pr).1) ((rv, lv) :: absR b) := by
  simp only [bimap.insert, if_pos hc, absR]
  have := (Treap.toList_insert_perm keyR priR ⟨lv, rv, pl, pr⟩ b.right_map).map
    (fun n => (n.rKey, n.lKey))
  simpa using this

/-! ## Claim C1 -/

/-- C1: for every bimap state and pair `(l, r)`: if `l` already exists on the
left side or `r` already exists on the right side, `insert(l, r)` performs no
mutation and returns `end_left()`; otherwise it adds the pair to both sides,
increments the size by one, and returns an iterator to the inserted left
element. -/
theorem insert_spec (b : bimap) (hwf : WF b) (lv rv pl pr : Nat) :
    ((lv ∈ lKeys b ∨ rv ∈ rKeys b) → b.insert lv rv pl pr = (b, none)) ∧
    (lv ∉ lKeys b → rv ∉ rKeys b →
      (b.insert lv rv pl pr).2 = some ⟨lv, rv, pl, pr⟩ ∧
      (b.insert lv rv pl pr).1.size = b.size + 1 ∧
      List.Perm (absL (b.insert lv rv pl pr).1) ((lv, rv) :: absL b) ∧
      List.Perm (absR (b.insert lv rv pl pr).1) ((rv, lv) :: absR b)) := by
  constructor
  · intro hdup
    have hc : ¬ (b.find_left lv = none ∧ b.find_right rv = none) := by
      intro hc
      rcases hdup with h1 | h1
      · exact (find_left_none_iff_lKeys b hwf.bstL lv).mp hc.1 h1
      · exact (find_right_none_iff_rKeys b hwf.bstR rv).mp hc.2 h1
    simp only [bimap.insert, if_neg hc]
  · intro hl hr
    have hc : b.find_left lv = none ∧ b.find_right rv = none :=
      ⟨(find_left_none_iff_lKeys b hwf.bstL lv).mpr hl,
       (find_right_none_iff_rKeys b hwf.bstR rv).mpr hr⟩
    refine ⟨?_, ?_, absL_insert_perm b lv rv pl pr hc, absR_insert_perm b lv rv pl pr hc⟩
    · simp only [bimap.insert, if_pos hc]
    · simp only [bimap.insert, if_pos hc, bimap.size]

/-- Witness for C1: on the concrete store `{(1,2)}` the insert `(1,3)` is
rejected without mutation, and the insert into the empty store succeeds. -/
theorem insert_spec_witness :
    (emptyBimap.insert 1 2 5 7).2 = some ⟨1, 2, 5, 7⟩ ∧
    (emptyBimap.insert 1 2 5 7).1.size = emptyBimap.size + 1 ∧
    (emptyBimap.insert 1 2 5 7).1.insert 1 3 4 4 = ((emptyBimap.insert 1 2 5 7).1, none) := by
  have h0 := insert_spec emptyBimap wf_empty 1 2 5 7
  have h1 := insert_spec (emptyBimap.insert 1 2 5 7).1
    (wf_insert emptyBimap wf_empty 1 2 5 7) 1 3 4 4
  obtain ⟨ha, hb, -, -⟩ := h0.2 (by decide) (by decide)
  exact ⟨ha, hb, h1.1 (Or.inl (by decide))⟩

/-! ## Claim C3 -/

/-- C3: after `erase_left(it)` for a valid non-end left iterator pointing at
the pair `(n.lKey, n.rKey)`, neither key is findable on its side and the size
decreases by exactly one. -/
theorem erase_left_spec (b : bimap) (hwf : WF b) (n : PairNode)
    (hmem : n ∈ b.left_map.toList) :
    (b.erase_left_it n).find_left n.lKey = none ∧
    (b.erase_left_it n).find_right n.rKey = none ∧
    (b.erase_left_it n).size + 1 = b.size := by
  have hwf' := wf_erase_left_it b hwf n hmem
  have hL : (b.erase_left_it n).left_map.toList
      = b.left_map.toList.filter (fun x => keyL x ≠ n.lKey) :=
    Treap.toList_erase keyL priL n.lKey b.left_map hwf.bstL
  have hR : (b.erase_left_it n).right_map.toList
      = b.right_map.toList.filter (fun x => keyR x ≠ n.rKey) :=
    Treap.toList_erase keyR priR n.rKey b.right_map hwf.bstR
  refine ⟨?_, ?_, ?_⟩
  · rw [bimap.find_left, Treap.find_eq_none_iff keyL n.lKey _ hwf'.bstL]
    intro e he
    rw [hL] at he
    simpa using List.of_mem_filter he
  · rw [bimap.find_right, Treap.find_eq_none_iff keyR n.rKey _ hwf'.bstR]
    intro e he
    rw [hR] at he
    simpa using List.of_mem_filter he
  · have hpos : 1 ≤ b.pair_count := by
      rw [hwf.count]
      exact List.length_pos.mpr (List.ne_nil_of_mem hmem)
    show b.pair_count - 1 + 1 = b.pair_count
    omega

/-- Witness for C3: erasing the single pair `(1,2)` through its left
iterator. -/
theorem erase_left_spec_witness :
    ((emptyBimap.insert 1 2 5 7).1.erase_left_it ⟨1, 2, 5, 7⟩).find_left 1 = none ∧
    ((emptyBimap.insert 1 2 5 7).1.erase_left_it ⟨1, 2, 5, 7⟩).find_right 2 = none ∧
    ((emptyBimap.insert 1 2 5 7).1.erase_left_it ⟨1, 2, 5, 7⟩).size + 1 =
      (emptyBimap.insert 1 2 5 7).1.size :=
  erase_left_spec (emptyBimap.insert 1 2 5 7).1
    (wf_insert emptyBimap wf_empty 1 2 5 7) ⟨1, 2, 5, 7⟩ (by decide)

/-! ## How the erase operations act on the pair list -/

theorem erase_right_key_eq (b : bimap) {x : Nat} {n : PairNode}
    (hf : b.find_right x = some n) : (b.erase_right x).1 = b.erase_right_it n := by
  simp [bimap.erase_right, hf]

theorem erase_left_key_eq (b : bimap) {x : Nat} {n : PairNode}
    (hf : b.find_left x = some n) : (b.erase_left x).1 = b.erase_left_it n := by
  simp [bimap.erase_left, hf]

theorem erase_right_key_none (b : bimap) {x : Nat}
    (hf : b.find_right x = none) : (b.erase_right x).1 = b := by
  simp [bimap.erase_right, hf]

theorem erase_left_key_none (b : bimap) {x : Nat}
    (hf : b.find_left x = none) : (b.erase_left x).1 = b := by
  simp [bimap.erase_left, hf]

theorem mem_left_erase_right (b : bimap) (hwf : WF b) (y : Nat) {e : PairNode}
    (he : e ∈ (b.erase_right y).1.left_map.toList) : e ∈ b.left_map.toList := by
  cases hf : b.find_right y with
  | none =>
    rw [erase_right_key_none b hf] at he
    exact he
  | some n =>
    rw [erase_right_key_eq b hf] at he
    have h2 : e ∈ b.left_map.toList.filter (fun z => keyL z ≠ n.lKey) := by
      rw [← Treap.toList_erase keyL priL n.lKey b.left_map hwf.bstL]
      exact he
    exact List.mem_of_mem_filter h2

theorem mem_right_erase_left (b : bimap) (hwf : WF b) (y : Nat) {e : PairNode}
    (he : e ∈ (b.erase_left y).1.right_map.toList) : e ∈ b.right_map.toList := by
  cases hf : b.find_left y with
  | none =>
    rw [erase_left_key_none b hf] at he
    exact he
  | some n =>
    rw [erase_left_key_eq b hf] at he
    have h2 : e ∈ b.right_map.toList.filter (fun z => keyR z ≠ n.rKey) := by
      rw [← Treap.toList_erase keyR priR n.rKey b.right_map hwf.bstR]
      exact he
    exact List.mem_of_mem_filter h2

/-- After `erase_right(x)` the right key `x` is gone. -/
theorem find_right_after_erase_right (b : bimap) (hwf : WF b) (x : Nat) :
    (b.erase_right x).1.find_right x = none := by
  cases hf : b.find_right x with
  | none =>
    rw [erase_right_key_none b hf]
    exact hf
  | some n =>
    obtain ⟨hmemR, hkey⟩ := Treap.find_eq_some hwf.bstR hf
    have hwf' : WF (b.erase_right_it n) := wf_erase_right_it b hwf n hmemR
    rw [erase_right_key_eq b hf, bimap.find_right,
      Treap.find_eq_none_iff keyR x _ hwf'.bstR]
    intro e he
    have he2 : e ∈ b.right_map.toList.filter (fun y => keyR y ≠ n.rKey) := by
      rw [← Treap.toList_erase keyR priR n.rKey b.right_map hwf.bstR]
      exact he
    have h3 := List.of_mem_filter he2
    rw [← hkey]
    simpa using h3

/-- After `erase_left(x)` the left key `x` is gone. -/
theorem find_left_after_erase_left (b : bimap) (hwf : WF b) (x : Nat) :
    (b.erase_left x).1.find_left x = none := by
  cases hf : b.find_left x with
  | none =>
    rw [erase_left_key_none b hf]
    exact hf
  | some n =>
    obtain ⟨hmemL, hkey⟩ := Treap.find_eq_some hwf.bstL hf
    have hwf' : WF (b.erase_left_it n) := wf_erase_left_it b hwf n hmemL
    rw [erase_left_key_eq b hf, bimap.find_left,
      Treap.find_eq_none_iff keyL x _ hwf'.bstL]
    intro e he
    have he2 : e ∈ b.left_map.toList.filter (fun y => keyL y ≠ n.lKey) := by
      rw [← Treap.toList_erase keyL priL n.lKey b.left_map hwf.bstL]
      exact he
    have h3 := List.of_mem_filter he2
    rw [← hkey]
    simpa using h3

/-- A left key that was absent stays absent across `erase_right`. -/
theorem find_left_none_after_erase_right (b : bimap) (hwf : WF b) (x y : Nat)
    (h : b.find_left x = none) : (b.erase_right y).1.find_left x = none := by
  have hwf' := wf_erase_right_key b hwf y
  rw [bimap.find_left, Treap.find_eq_none_iff keyL x _ hwf'.bstL]
  intro e he
  exact (Treap.find_eq_none_iff keyL x b.left_map hwf.bstL).mp h e
    (mem_left_erase_right b hwf y he)

/-- A right key that was absent stays absent across `erase_left`. -/
theorem find_right_none_after_erase_left (b : bimap) (hwf : WF b) (x y : Nat)
    (h : b.find_right x = none) : (b.erase_left y).1.find_right x = none := by
  have hwf' := wf_erase_left_key b hwf y
  rw [bimap.find_right, Treap.find_eq_none_iff keyR x _ hwf'.bstR]
  intro e he
  exact (Treap.find_eq_none_iff keyR x b.right_map hwf.bstR).mp h e
    (mem_right_erase_left b hwf y he)

/-- `erase_left(x)` drops exactly the pairs whose left key is `x` from the
L-order pair list. -/
theorem absL_erase_left_key (b : bimap) (hwf : WF b) (x : Nat) :
    absL (b.erase_left x).1 = (absL b).filter (fun p => p.1 ≠ x) := by
  cases hf : b.find_left x with
  | none =>
    have hnone : ∀ e ∈ b.left_map.toList, keyL e ≠ x :=
      (Treap.find_eq_none_iff keyL x b.left_map hwf.bstL).mp hf
    rw [erase_left_key_none b hf]
    symm
    apply List.filter_eq_self.mpr
    intro p hp
    obtain ⟨e, he, hpe⟩ := List.mem_map.mp hp
    rw [← hpe]
    simpa using hnone e he
  | some n =>
    obtain ⟨hmemL, hkey⟩ := Treap.find_eq_some hwf.bstL hf
    rw [erase_left_key_eq b hf]
    have h1 : absL (b.erase_left_it n)
        = (b.left_map.toList.filter (fun e => keyL e ≠ n.lKey)).map
            (fun e => (e.lKey, e.rKey)) := by
      simp only [absL]
      rw [show (b.erase_left_it n).left_map = b.left_map.erase keyL priL n.lKey from rfl,
        Treap.toList_erase keyL priL n.lKey b.left_map hwf.bstL]
    rw [h1]
    have h2 : b.left_map.toList.filter (fun e => keyL e ≠ n.lKey)
        = b.left_map.toList.filter
            ((fun p : Nat × Nat => decide (p.1 ≠ x)) ∘ (fun e => (e.lKey, e.rKey))) := by
      apply List.filter_congr
      intro e he
      have : n.lKey = x := hkey
      simp [Function.comp, keyL, this]
    rw [h2, absL, ← List.map_filter]

/-- `erase_right(x)` drops exactly the pairs whose right key is `x` from the
R-order pair list. -/
theorem absR_erase_right_key (b : bimap) (hwf : WF b) (x : Nat) :
    absR (b.erase_right x).1 = (absR b).filter (fun p => p.1 ≠ x) := by
  cases hf : b.find_right x with
  | none =>
    have hnone : ∀ e ∈ b.right_map.toList, keyR e ≠ x :=
      (Treap.find_eq_none_iff keyR x b.right_map hwf.bstR).mp hf
    rw [erase_right_key_none b hf]
    symm
    apply List.filter_eq_self.mpr
    intro p hp
    obtain ⟨e, he, hpe⟩ := List.mem_map.mp hp
    rw [← hpe]
    simpa using hnone e he
  | some n =>
    obtain ⟨hmemR, hkey⟩ := Treap.find_eq_some hwf.bstR hf
    rw [erase_right_key_eq b hf]
    have h1 : absR (b.erase_right_it n)
        = (b.right_map.toList.filter (fun e => keyR e ≠ n.rKey)).map
            (fun e => (e.rKey, e.lKey)) := by
      simp only [absR]
      rw [show (b.erase_right_it n).right_map = b.right_map.erase keyR priR n.rKey from rfl,
        Treap.toList_erase keyR priR n.rKey b.right_map hwf.bstR]
    rw [h1]
    have h2 : b.right_map.toList.filter (fun e => keyR e ≠ n.rKey)
        = b.right_map.toList.filter
            ((fun p : Nat × Nat => decide (p.1 ≠ x)) ∘ (fun e => (e.rKey, e.lKey))) := by
      apply List.filter_congr
      intro e he
      have : n.rKey = x := hkey
      simp [Function.comp, keyR, this]
    rw [h2, absR, ← List.map_filter]

/-- `erase_right(x)` acts on the L-order pair list by dropping the pairs
whose right component is `x`. -/
theorem absL_erase_right_key (b : bimap) (hwf : WF b) (x : Nat) :
    absL (b.erase_right x).1 = (absL b).filter (fun p => p.2 ≠ x) := by
  cases hf : b.find_right x with
  | none =>
    have hnone : ∀ e ∈ b.right_map.toList, keyR e ≠ x :=
      (Treap.find_eq_none_iff keyR x b.right_map hwf.bstR).mp hf
    rw [erase_right_key_none b hf]
    symm
    apply List.filter_eq_self.mpr
    intro p hp
    obtain ⟨e, he, hpe⟩ := List.mem_map.mp hp
    rw [← hpe]
    simpa using hnone e (hwf.perm.mem_iff.mp he)
  | some n =>
    obtain ⟨hmemR, hkey⟩ := Treap.find_eq_some hwf.bstR hf
    have hmemL : n ∈ b.left_map.toList := hwf.perm.mem_iff.mpr hmemR
    have hinjL := keyInj_of_pairwise (sortedL b hwf)
    have hinjR := keyInj_of_pairwise (sortedR b hwf)
    rw [erase_right_key_eq b hf]
    have h1 : absL (b.erase_right_it n)
        = (b.left_map.toList.filter (fun e => keyL e ≠ n.lKey)).map
            (fun e => (e.lKey, e.rKey)) := by
      simp only [absL]
      rw [show (b.erase_right_it n).left_map = b.left_map.erase keyL priL n.lKey from rfl,
        Treap.toList_erase keyL priL n.lKey b.left_map hwf.bstL]
    rw [h1]
    have h2 : b.left_map.toList.filter (fun e => keyL e ≠ n.lKey)
        = b.left_map.toList.filter
            ((fun p : Nat × Nat => decide (p.2 ≠ x)) ∘ (fun e => (e.lKey, e.rKey))) := by
      apply List.filter_congr
      intro e he
      simp only [Function.comp]
      apply decide_eq_decide.mpr
      constructor
      · intro h3 h4
        apply h3
        have he5 : e = n := hinjR e (hwf.perm.mem_iff.mp he) n hmemR (by rw [hkey]; exact h4)
        rw [he5]
        rfl
      · intro h3 h4
        apply h3
        have he5 : e = n := hinjL e he n hmemL h4
        rw [he5]
        exact hkey
    rw [h2, absL, ← List.map_filter]

/-- `erase_left(x)` acts on the R-order pair list by dropping the pairs whose
left component (second coordinate there) is `x`. -/
theorem absR_erase_left_key (b : bimap) (hwf : WF b) (x : Nat) :
    absR (b.erase_left x).1 = (absR b).filter (fun p => p.2 ≠ x) := by
  cases hf : b.find_left x with
  | none =>
    have hnone : ∀ e ∈ b.left_map.toList, keyL e ≠ x :=
      (Treap.find_eq_none_iff keyL x b.left_map hwf.bstL).mp hf
    rw [erase_left_key_none b hf]
    symm
    apply List.filter_eq_self.mpr
    intro p hp
    obtain ⟨e, he, hpe⟩ := List.mem_map.mp hp
    rw [← hpe]
    simpa using hnone e (hwf.perm.mem_iff.mpr he)
  | some n =>
    obtain ⟨hmemL, hkey⟩ := Treap.find_eq_some hwf.bstL hf
    have hmemR : n ∈ b.right_map.toList := hwf.perm.mem_iff.mp hmemL
    have hinjL := keyInj_of_pairwise (sortedL b hwf)
    have hinjR := keyInj_of_pairwise (sortedR b hwf)
    rw [erase_left_key_eq b hf]
    have h1 : absR (b.erase_left_it n)
        = (b.right_map.toList.filter (fun e => keyR e ≠ n.rKey)).map
            (fun e => (e.rKey, e.lKey)) := by
      simp only [absR]
      rw [show (b.erase_left_it n).right_map = b.right_map.erase keyR priR n.rKey from rfl,
        Treap.toList_erase keyR priR n.rKey b.right_map hwf.bstR]
    rw [h1]
    have h2 : b.right_map.toList.filter (fun e => keyR e ≠ n.rKey)
        = b.right_map.toList.filter
            ((fun p : Nat × Nat => decide (p.2 ≠ x)) ∘ (fun e => (e.rKey, e.lKey))) := by
      apply List.filter_congr
      intro e he
      simp only [Function.comp]
      apply decide_eq_decide.mpr
      constructor
      · intro h3 h4
        apply h3
        have he5 : e = n := hinjL e (hwf.perm.mem_iff.mpr he) n hmemL (by rw [hkey]; exact h4)
        rw [he5]
        rfl
      · intro h3 h4
        apply h3
        have he5 : e = n := hinjR e he n hmemR h4
        rw [he5]
        exact hkey
    rw [h2, absR, ← List.map_filter]

theorem wf_at_left_or_default (b : bimap) (hwf : WF b) (x pl pr : Nat) :
    WF (b.at_left_or_default x pl pr).1 := by
  cases hf : b.find_left x with
  | some n => simpa [bimap.at_left_or_default, hf] using hwf
  | none =>
    have h1 : (b.at_left_or_default x pl pr).1 = ((b.erase_right 0).1.insert x 0 pl pr).1 := by
      simp [bimap.at_left_or_default, hf]
    rw [h1]
    exact wf_insert _ (wf_erase_right_key b hwf 0) x 0 pl pr

theorem wf_at_right_or_default (b : bimap) (hwf : WF b) (x pl pr : Nat) :
    WF (b.at_right_or_default x pl pr).1 := by
  cases hf : b.find_right x with
  | some n => simpa [bimap.at_right_or_default, hf] using hwf
  | none =>
    have h1 : (b.at_right_or_default x pl pr).1 = ((b.erase_left 0).1.insert 0 x pl pr).1 := by
      simp [bimap.at_right_or_default, hf]
    rw [h1]
    exact wf_insert _ (wf_erase_left_key b hwf 0) 0 x pl pr

/-! ## Claim C4 -/

/-- C4: `at_left_or_default` (and symmetrically `at_right_or_default`): if
the key is present on its side, the existing paired value is returned and the
store is untouched; if it is absent, the operation first erases any existing
pair whose opposite-side value equals the default-constructed value `0`, then
inserts `(key, 0)` and returns the inserted opposite-side value. -/
theorem at_or_default_spec (b : bimap) (hwf : WF b) (x pl pr : Nat) :
    (∀ n, b.find_left x = some n → b.at_left_or_default x pl pr = (b, some n.rKey)) ∧
    (b.find_left x = none →
      (b.at_left_or_default x pl pr).2 = some 0 ∧
      List.Perm (absL (b.at_left_or_default x pl pr).1)
        ((x, 0) :: (absL b).filter (fun p => p.2 ≠ 0))) ∧
    (∀ n, b.find_right x = some n → b.at_right_or_default x pl pr = (b, some n.lKey)) ∧
    (b.find_right x = none →
      (b.at_right_or_default x pl pr).2 = some 0 ∧
      List.Perm (absR (b.at_right_or_default x pl pr).1)
        ((x, 0) :: (absR b).filter (fun p => p.2 ≠ 0))) := by
  refine ⟨?_, ?_, ?_, ?_⟩
  · intro n hf
    simp [bimap.at_left_or_default, hf]
  · intro hf
    have hc : (b.erase_right 0).1.find_left x = none ∧
        (b.erase_right 0).1.find_right 0 = none :=
      ⟨find_left_none_after_erase_right b hwf x 0 hf,
       find_right_after_erase_right b hwf 0⟩
    have hres : b.at_left_or_default x pl pr
        = (((b.erase_right 0).1.insert x 0 pl pr).1,
           (((b.erase_right 0).1.insert x 0 pl pr).2).map keyR) := by
      simp [bimap.at_left_or_default, hf]
    rw [hres]
    constructor
    · simp [bimap.insert, if_pos hc, keyR]
    · have hperm := absL_insert_perm (b.erase_right 0).1 x 0 pl pr hc
      rw [absL_erase_right_key b hwf 0] at hperm
      exact hperm
  · intro n hf
    simp [bimap.at_right_or_default, hf]
  · intro hf
    have hc : (b.erase_left 0).1.find_left 0 = none ∧
        (b.erase_left 0).1.find_right x = none :=
      ⟨find_left_after_erase_left b hwf 0,
       find_right_none_after_erase_left b hwf x 0 hf⟩
    have hres : b.at_right_or_default x pl pr
        = (((b.erase_left 0).1.insert 0 x pl pr).1,
           (((b.erase_left 0).1.insert 0 x pl pr).2).map keyL) := by
      simp [bimap.at_right_or_default, hf]
    rw [hres]
    constructor
    · simp [bimap.insert, if_pos hc, keyL]
    · have hperm := absR_insert_perm (b.erase_left 0).1 0 x pl pr hc
      rw [absR_erase_left_key b hwf 0] at hperm
      exact hperm

/-- Witness for C4, the concrete scenario of the claim: starting empty,
`at_left_or_default(1)` returns the default and the store becomes
`{(1,0)}`; then `at_left_or_default(2)` evicts `(1,0)`, returns the default,
and the store becomes `{(2,0)}`. -/
theorem at_or_default_spec_witness :
    (emptyBimap.at_left_or_default 1 5 6).2 = some 0 ∧
    absL (emptyBimap.at_left_or_default 1 5 6).1 = [(1, 0)] ∧
    ((emptyBimap.at_left_or_default 1 5 6).1.at_left_or_default 2 3 4).2 = some 0 ∧
    absL ((emptyBimap.at_left_or_default 1 5 6).1.at_left_or_default 2 3 4).1 = [(2, 0)] := by
  have h1 := (at_or_default_spec emptyBimap wf_empty 1 5 6).2.1 (by decide)
  have habs1 : absL (emptyBimap.at_left_or_default 1 5 6).1 = [(1, 0)] := by
    have hp := h1.2
    rw [show (absL emptyBimap).filter (fun p => p.2 ≠ 0) = [] from rfl] at hp
    exact List.perm_singleton.mp hp
  have h2 := (at_or_default_spec (emptyBimap.at_left_or_default 1 5 6).1
    (wf_at_left_or_default emptyBimap wf_empty 1 5 6) 2 3 4).2.1 (by decide)
  have habs2 : absL ((emptyBimap.at_left_or_default 1 5 6).1.at_left_or_default 2 3 4).1
      = [(2, 0)] := by
    have hp := h2.2
    rw [habs1] at hp
    rw [show ([((1 : Nat), (0 : Nat))]).filter (fun p => p.2 ≠ 0) = [] from rfl] at hp
    exact List.perm_singleton.mp hp
  exact ⟨h1.1, habs1, h2.1, habs2⟩

/-! ## Claim C7 -/

/-- C7: for every valid non-end iterator, flipping to the paired element on
the other side and flipping back yields the original iterator (both
directions are casts inside the same `node_t`). -/
theorem flip_flip_spec :
    (∀ i : left_iterator, i.it ≠ none → i.flip.flip = i) ∧
    (∀ j : right_iterator, j.it ≠ none → j.flip.flip = j) := by
  constructor
  · intro i h
    rfl
  · intro j h
    rfl

/-- Witness for C7 at a concrete pair. -/
theorem flip_flip_spec_witness :
    (⟨some ⟨1, 2, 3, 4⟩⟩ : left_iterator).it ≠ none ∧
    (⟨some ⟨1, 2, 3, 4⟩⟩ : left_iterator).flip.flip = ⟨some ⟨1, 2, 3, 4⟩⟩ :=
  ⟨by decide, flip_flip_spec.1 ⟨some ⟨1, 2, 3, 4⟩⟩ (by decide)⟩

/-! ## Reachable states and the tree invariants -/

/-- Bimap states reachable from the default constructor through the public
mutating operations and the copy constructor. -/
inductive Reachable : bimap → Prop where
  | empty : Reachable emptyBimap
  | insert (b : bimap) (lv rv pl pr : Nat) :
      Reachable b → Reachable (b.insert lv rv pl pr).1
  | erase_left_it (b : bimap) (n : PairNode) :
      Reachable b → n ∈ b.left_map.toList → Reachable (b.erase_left_it n)
  | erase_right_it (b : bimap) (n : PairNode) :
      Reachable b → n ∈ b.right_map.toList → Reachable (b.erase_right_it n)
  | erase_left_key (b : bimap) (x : Nat) : Reachable b → Reachable (b.erase_left x).1
  | erase_right_key (b : bimap) (x : Nat) : Reachable b → Reachable (b.erase_right x).1
  | at_left_def (b : bimap) (x pl pr : Nat) :
      Reachable b → Reachable (b.at_left_or_default x pl pr).1
  | at_right_def (b : bimap) (x pl pr : Nat) :
      Reachable b → Reachable (b.at_right_or_default x pl pr).1
  | copy (b : bimap) (prs : Nat → Nat × Nat) : Reachable b → Reachable (copyBimap prs b)

/-- The tree part of well-formedness (everything except the `pair_count`
bookkeeping, which the copy constructor corrupts). -/
structure InvT (b : bimap) : Prop where
  bstL : b.left_map.isBST keyL = true
  bstR : b.right_map.isBST keyR = true
  perm : List.Perm b.left_map.toList b.right_map.toList

theorem invT_of_wf {b : bimap} (h : WF b) : InvT b := ⟨h.bstL, h.bstR, h.perm⟩

/-- A state with sound trees equals, up to its pair counter, a well-formed
state. -/
theorem wf_fix (b : bimap) (h : InvT b) :
    WF ⟨b.left_map, b.right_map, b.left_map.toList.length⟩ :=
  ⟨h.bstL, h.bstR, h.perm, rfl⟩

/-- The trees produced by `insert` do not depend on the stored counter. -/
theorem insert_trees (b : bimap) (c lv rv pl pr : Nat) :
    ((⟨b.left_map, b.right_map, c⟩ : bimap).insert lv rv pl pr).1.left_map
      = (b.insert lv rv pl pr).1.left_map ∧
    ((⟨b.left_map, b.right_map, c⟩ : bimap).insert lv rv pl pr).1.right_map
      = (b.insert lv rv pl pr).1.right_map := by
  by_cases hc : b.find_left lv = none ∧ b.find_right rv = none
  · have hc' : (⟨b.left_map, b.right_map, c⟩ : bimap).find_left lv = none ∧
        (⟨b.left_map, b.right_map, c⟩ : bimap).find_right rv = none := hc
    rw [bimap.insert, if_pos hc', bimap.insert, if_pos hc]
    exact ⟨rfl, rfl⟩
  · have hc' : ¬ ((⟨b.left_map, b.right_map, c⟩ : bimap).find_left lv = none ∧
        (⟨b.left_map, b.right_map, c⟩ : bimap).find_right rv = none) := hc
    rw [bimap.insert, if_neg hc', bimap.insert, if_neg hc]
    exact ⟨rfl, rfl⟩

theorem invT_insert (b : bimap) (h : InvT b) (lv rv pl pr : Nat) :
    InvT (b.insert lv rv pl pr).1 := by
  have hwf := wf_insert _ (wf_fix b h) lv rv pl pr
  obtain ⟨hL, hR⟩ := insert_trees b b.left_map.toList.length lv rv pl pr
  exact ⟨hL ▸ hwf.bstL, hR ▸ hwf.bstR, by rw [← hL, ← hR]; exact hwf.perm⟩

theorem invT_erase_left_it (b : bimap) (h : InvT b) (n : PairNode)
    (hmem : n ∈ b.left_map.toList) : InvT (b.erase_left_it n) := by
  have hwf := wf_erase_left_it _ (wf_fix b h) n hmem
  exact ⟨hwf.bstL, hwf.bstR, hwf.perm⟩

theorem invT_erase_right_it (b : bimap) (h : InvT b) (n : PairNode)
    (hmem : n ∈ b.right_map.toList) : InvT (b.erase_right_it n) := by
  have hwf := wf_erase_right_it _ (wf_fix b h) n hmem
  exact ⟨hwf.bstL, hwf.bstR, hwf.perm⟩

theorem invT_erase_left_key (b : bimap) (h : InvT b) (x : Nat) :
    InvT (b.erase_left x).1 := by
  cases hf : b.find_left x with
  | none => rw [erase_left_key_none b hf]; exact h
  | some n =>
    rw [erase_left_key_eq b hf]
    exact invT_erase_left_it b h n (Treap.find_eq_some h.bstL hf).1

theorem invT_erase_right_key (b : bimap) (h : InvT b) (x : Nat) :
    InvT (b.erase_right x).1 := by
  cases hf : b.find_right x with
  | none => rw [erase_right_key_none b hf]; exact h
  | some n =>
    rw [erase_right_key_eq b hf]
    exact invT_erase_right_it b h n (Treap.find_eq_some h.bstR hf).1

theorem invT_at_left_def (b : bimap) (h : InvT b) (x pl pr : Nat) :
    InvT (b.at_left_or_default x pl pr).1 := by
  cases hf : b.find_left x with
  | some n => simpa [bimap.at_left_or_default, hf] using h
  | none =>
    have h1 : (b.at_left_or_default x pl pr).1 = ((b.erase_right 0).1.insert x 0 pl pr).1 := by
      simp [bimap.at_left_or_default, hf]
    rw [h1]
    exact invT_insert _ (invT_erase_right_key b h 0) x 0 pl pr

theorem invT_at_right_def (b : bimap) (h : InvT b) (x pl pr : Nat) :
    InvT (b.at_right_or_default x pl pr).1 := by
  cases hf : b.find_right x with
  | some n => simpa [bimap.at_right_or_default, hf] using h
  | none =>
    have h1 : (b.at_right_or_default x pl pr).1 = ((b.erase_left 0).1.insert 0 x pl pr).1 := by
      simp [bimap.at_right_or_default, hf]
    rw [h1]
    exact invT_insert _ (invT_erase_left_key b h 0) 0 x pl pr

theorem invT_insertFromList (prs : Nat → Nat × Nat) (i : Nat) (ps : List (Nat × Nat))
    (b : bimap) (h : InvT b) : InvT (insertFromList prs i ps b) := by
  induction ps generalizing i b with
  | nil => simpa [insertFromList] using h
  | cons p rest ih =>
    rw [insertFromList]
    exact ih (i + 1) _ (invT_insert b h p.1 p.2 (prs i).1 (prs i).2)

theorem invT_copy (b : bimap) (prs : Nat → Nat × Nat) : InvT (copyBimap prs b) := by
  rw [copyBimap]
  apply invT_insertFromList
  constructor <;> simp [Treap.isBST, Treap.toList]

/-- Every reachable state has sound trees. -/
theorem reachable_invT (b : bimap) (h : Reachable b) : InvT b := by
  induction h with
  | empty => exact invT_of_wf wf_empty
  | insert b lv rv pl pr hb ih => exact invT_insert b ih lv rv pl pr
  | erase_left_it b n hb hmem ih => exact invT_erase_left_it b ih n hmem
  | erase_right_it b n hb hmem ih => exact invT_erase_right_it b ih n hmem
  | erase_left_key b x hb ih => exact invT_erase_left_key b ih x
  | erase_right_key b x hb ih => exact invT_erase_right_key b ih x
  | at_left_def b x pl pr hb ih => exact invT_at_left_def b ih x pl pr
  | at_right_def b x pl pr hb ih => exact invT_at_right_def b ih x pl pr
  | copy b prs hb ih => exact invT_copy b prs

/-! ## Claim C6 -/

/-- C6: in every reachable state, iterating the left side from
`begin_left()` to `end_left()` yields strictly increasing left keys, and the
right side yields strictly increasing right keys; all mutating operations
(insert via `split`, erase via `merge`) preserve this. -/
theorem ordering_invariant (b : bimap) (h : Reachable b) :
    List.Pairwise (· < ·) (lKeys b) ∧ List.Pairwise (· < ·) (rKeys b) := by
  have hi := reachable_invT b h
  constructor
  · exact List.Pairwise.map keyL (fun a c hac => hac)
      (Treap.sorted_toList keyL b.left_map hi.bstL)
  · exact List.Pairwise.map keyR (fun a c hac => hac)
      (Treap.sorted_toList keyR b.right_map hi.bstR)

/-- Witness for C6 on a concrete reachable state (two inserts, one erase). -/
theorem ordering_invariant_witness :
    List.Pairwise (· < ·)
      (lKeys ((emptyBimap.insert 2 20 5 1).1.insert 1 10 3 9).1) ∧
    List.Pairwise (· < ·)
      (rKeys ((emptyBimap.insert 2 20 5 1).1.insert 1 10 3 9).1) :=
  ordering_invariant _
    (Reachable.insert _ 1 10 3 9 (Reachable.insert _ 2 20 5 1 Reachable.empty))

/-! ## Claims C2 and C5: the copy constructor double-counts

`bimap(bimap const& other)` member-initializes `pair_count` with
`other.pair_count` and then calls `insert_from(other)`, whose `insert` calls
increment `pair_count` once more per pair.  A copy of an `n`-pair bimap hence
reports `size() = 2n`, breaks the `size() =` node-count invariant, and
compares unequal to its source. -/

/-- C2: evaluation of the copy constructor at the store `{(1,2)}`.  The copy
contains exactly the source's pairs, but its `size()` is `2`, not `1`, and
`operator==` between copy and source yields `false` — contradicting the
claimed deep-copy equality. -/
theorem copy_ctor_neq_bug :
    absL (copyBimap (fun _ => (3, 4)) (emptyBimap.insert 1 2 5 7).1)
      = absL (emptyBimap.insert 1 2 5 7).1 ∧
    (emptyBimap.insert 1 2 5 7).1.size = 1 ∧
    (copyBimap (fun _ => (3, 4)) (emptyBimap.insert 1 2 5 7).1).size = 2 ∧
    bimap.beq (copyBimap (fun _ => (3, 4)) (emptyBimap.insert 1 2 5 7).1)
      (emptyBimap.insert 1 2 5 7).1 = false := by
  refine ⟨?_, ?_, ?_, ?_⟩ <;> decide

/-- C5: the copy-constructed state is reachable, yet its `size()` is `2`
while each tree holds exactly one node — the bijection invariant's
`size() = node count` part fails on it. -/
theorem copy_ctor_bijection_bug :
    Reachable (copyBimap (fun _ => (3, 4)) (emptyBimap.insert 1 2 5 7).1) ∧
    (copyBimap (fun _ => (3, 4)) (emptyBimap.insert 1 2 5 7).1).size = 2 ∧
    (copyBimap (fun _ => (3, 4)) (emptyBimap.insert 1 2 5 7).1).left_map.toList.length = 1 ∧
    (copyBimap (fun _ => (3, 4)) (emptyBimap.insert 1 2 5 7).1).right_map.toList.length = 1 := by
  refine ⟨Reachable.copy _ _ (Reachable.insert _ 1 2 5 7 Reachable.empty), ?_, ?_, ?_⟩
    <;> decide

/-! ## The pair list determines every observable -/

theorem sortedAbsL (b : bimap) (h : InvT b) :
    (absL b).Pairwise (fun p q => p.1 < q.1) :=
  List.Pairwise.map _ (fun a c hac => hac) (Treap.sorted_toList keyL b.left_map h.bstL)

theorem sortedAbsR (b : bimap) (h : InvT b) :
    (absR b).Pairwise (fun p q => p.1 < q.1) :=
  List.Pairwise.map _ (fun a c hac => hac) (Treap.sorted_toList keyR b.right_map h.bstR)

theorem eq_of_perm_sorted_fst {s t : List (Nat × Nat)} (hp : List.Perm s t)
    (hs : s.Pairwise (fun p q => p.1 < q.1)) (ht : t.Pairwise (fun p q => p.1 < q.1)) :
    s = t := by
  haveI : IsAntisymm (Nat × Nat) (fun p q => p.1 < q.1) :=
    ⟨fun p q h1 h2 => absurd (Nat.lt_trans h1 h2) (Nat.lt_irrefl _)⟩
  exact List.eq_of_perm_of_sorted hp hs ht

/-- The R-order pair list is a reordering of the swapped L-order pair list. -/
theorem absR_perm (b : bimap) (h : InvT b) :
    List.Perm (absR b) ((absL b).map (fun p => (p.2, p.1))) := by
  have h1 : List.Perm (absR b)
      (b.left_map.toList.map (fun n => (n.rKey, n.lKey))) :=
    h.perm.symm.map _
  have h2 : (absL b).map (fun p => (p.2, p.1))
      = b.left_map.toList.map (fun n => (n.rKey, n.lKey)) := by
    rw [absL, List.map_map]
    rfl
  rw [h2]
  exact h1

/-- Two well-formed states with the same L-order pair list have the same
R-order pair list. -/
theorem absR_determined {a b : bimap} (ha : InvT a) (hb : InvT b)
    (habs : absL a = absL b) : absR a = absR b := by
  apply eq_of_perm_sorted_fst _ (sortedAbsR a ha) (sortedAbsR b hb)
  refine (absR_perm a ha).trans ?_
  rw [habs]
  exact (absR_perm b hb).symm

theorem lKeys_eq_abs (b : bimap) : lKeys b = (absL b).map Prod.fst := by
  rw [lKeys, absL, List.map_map]
  rfl

theorem rKeys_eq_abs (b : bimap) : rKeys b = (absR b).map Prod.fst := by
  rw [rKeys, absR, List.map_map]
  rfl

theorem count_eq_abs (b : bimap) (h : WF b) : b.pair_count = (absL b).length := by
  rw [h.count, absL, List.length_map]

/-! ## Sorted insertion: the abstract counterpart of a successful insert -/

def insertSorted (p : Nat × Nat) : List (Nat × Nat) → List (Nat × Nat)
  | [] => [p]
  | q :: qs => if p.1 < q.1 then p :: q :: qs else q :: insertSorted p qs

theorem insertSorted_perm (p : Nat × Nat) (s : List (Nat × Nat)) :
    List.Perm (insertSorted p s) (p :: s) := by
  induction s with
  | nil => simp [insertSorted]
  | cons q qs ih =>
    by_cases h : p.1 < q.1
    · simp [insertSorted, h]
    · rw [insertSorted, if_neg h]
      exact (ih.cons q).trans (List.Perm.swap p q qs)

theorem insertSorted_sorted (p : Nat × Nat) (s : List (Nat × Nat))
    (hs : s.Pairwise (fun a c => a.1 < c.1)) (hfresh : ∀ q ∈ s, q.1 ≠ p.1) :
    (insertSorted p s).Pairwise (fun a c => a.1 < c.1) := by
  induction s with
  | nil => simp [insertSorted]
  | cons q qs ih =>
    rw [List.pairwise_cons] at hs
    by_cases h : p.1 < q.1
    · rw [insertSorted, if_pos h, List.pairwise_cons]
      constructor
      · intro c hc
        rcases List.mem_cons.mp hc with rfl | hc
        · exact h
        · exact Nat.lt_trans h (hs.1 c hc)
      · rw [List.pairwise_cons]
        exact hs
    · have hq : q.1 < p.1 := by
        have := hfresh q (List.mem_cons_self q qs)
        omega
      rw [insertSorted, if_neg h, List.pairwise_cons]
      constructor
      · intro c hc
        rcases List.mem_cons.mp ((insertSorted_perm p qs).mem_iff.mp hc) with h2 | h2
        · rw [h2]; exact hq
        · exact hs.1 c h2
      · exact ih hs.2 (fun c hc => hfresh c (List.mem_cons_of_mem q hc))

/-- The abstract effect of `bimap::insert` on the L-order pair list. -/
def absInsert (lv rv : Nat) (s : List (Nat × Nat)) : List (Nat × Nat) :=
  if s.any (fun p => p.1 == lv) || s.any (fun p => p.2 == rv) then s
  else insertSorted (lv, rv) s

/-- The duplicate pre-check of `insert` is determined by the pair list. -/
theorem insert_check_abs (b : bimap) (hwf : InvT b) (lv rv : Nat) :
    (b.find_left lv = none ∧ b.find_right rv = none)
      ↔ ((absL b).any (fun p => p.1 == lv) || (absL b).any (fun p => p.2 == rv)) = false := by
  rw [Bool.or_eq_false_iff]
  rw [bimap.find_left, Treap.find_eq_none_iff keyL lv b.left_map hwf.bstL,
    bimap.find_right, Treap.find_eq_none_iff keyR rv b.right_map hwf.bstR]
  constructor
  · intro ⟨h1, h2⟩
    constructor
    · rw [List.any_eq_false]
      rintro p hp
      obtain ⟨e, he, rfl⟩ := List.mem_map.mp hp
      simpa using h1 e he
    · rw [List.any_eq_false]
      rintro p hp
      obtain ⟨e, he, rfl⟩ := List.mem_map.mp hp
      simpa using h2 e (hwf.perm.mem_iff.mp he)
  · intro ⟨h1, h2⟩
    rw [List.any_eq_false] at h1 h2
    constructor
    · intro e he
      have := h1 (e.lKey, e.rKey) (List.mem_map.mpr ⟨e, he, rfl⟩)
      simpa using this
    · intro e he
      have := h2 (e.lKey, e.rKey) (List.mem_map.mpr ⟨e, hwf.perm.mem_iff.mpr he, rfl⟩)
      simpa using this

/-- Core determinism step: the L-order pair list after `insert` is a function
of the L-order pair list before, whatever priorities were drawn. -/
theorem absL_insert_det (b : bimap) (hwf : WF b) (lv rv pl pr : Nat) :
    absL (b.insert lv rv pl pr).1 = absInsert lv rv (absL b) := by
  by_cases hc : b.find_left lv = none ∧ b.find_right rv = none
  · have hcond := (insert_check_abs b (invT_of_wf hwf) lv rv).mp hc
    rw [absInsert, hcond, if_neg (by simp)]
    apply eq_of_perm_sorted_fst
    · exact (absL_insert_perm b lv rv pl pr hc).trans (insertSorted_perm (lv, rv) (absL b)).symm
    · exact sortedAbsL _ (invT_of_wf (wf_insert b hwf lv rv pl pr))
    · apply insertSorted_sorted _ _ (sortedAbsL b (invT_of_wf hwf))
      intro q hq
      obtain ⟨e, he, rfl⟩ := List.mem_map.mp hq
      have h1 := (Treap.find_eq_none_iff keyL lv b.left_map hwf.bstL).mp hc.1 e he
      simpa using h1
  · have hcond : ((absL b).any (fun p => p.1 == lv) || (absL b).any (fun p => p.2 == rv)) = true := by
      rcases Bool.eq_false_or_eq_true ((absL b).any (fun p => p.1 == lv)
          || (absL b).any (fun p => p.2 == rv)) with h1 | h1
      · exact h1
      · exact absurd ((insert_check_abs b (invT_of_wf hwf) lv rv).mpr h1) hc
    rw [absInsert, hcond, if_pos rfl]
    simp only [bimap.insert, if_neg hc]

/-- Symmetric counterpart of `absL_insert_det` for the R-order list. -/
theorem absR_insert_det (b : bimap) (hwf : WF b) (lv rv pl pr : Nat) :
    absR (b.insert lv rv pl pr).1 =
      if (absL b).any (fun p => p.1 == lv) || (absL b).any (fun p => p.2 == rv)
      then absR b else insertSorted (rv, lv) (absR b) := by
  by_cases hc : b.find_left lv = none ∧ b.find_right rv = none
  · have hcond := (insert_check_abs b (invT_of_wf hwf) lv rv).mp hc
    rw [hcond, if_neg (by simp)]
    apply eq_of_perm_sorted_fst
    · exact (absR_insert_perm b lv rv pl pr hc).trans (insertSorted_perm (rv, lv) (absR b)).symm
    · exact sortedAbsR _ (invT_of_wf (wf_insert b hwf lv rv pl pr))
    · apply insertSorted_sorted _ _ (sortedAbsR b (invT_of_wf hwf))
      intro q hq
      obtain ⟨e, he, rfl⟩ := List.mem_map.mp hq
      have h1 := (Treap.find_eq_none_iff keyR rv b.right_map hwf.bstR).mp hc.2 e he
      simpa using h1
  · have hcond : ((absL b).any (fun p => p.1 == lv) || (absL b).any (fun p => p.2 == rv)) = true := by
      rcases Bool.eq_false_or_eq_true ((absL b).any (fun p => p.1 == lv)
          || (absL b).any (fun p => p.2 == rv)) with h1 | h1
      · exact h1
      · exact absurd ((insert_check_abs b (invT_of_wf hwf) lv rv).mpr h1) hc
    rw [hcond, if_pos rfl]
    simp only [bimap.insert, if_neg hc]

/-- The left iterator returned by `insert`, dereferenced on both sides, is
determined by the pair list (it does not depend on the priorities). -/
theorem insert_out_det (b : bimap) (hwf : WF b) (lv rv pl pr : Nat) :
    ((b.insert lv rv pl pr).2).map (fun n => (n.lKey, n.rKey)) =
      if (absL b).any (fun p => p.1 == lv) || (absL b).any (fun p => p.2 == rv)
      then none else some (lv, rv) := by
  by_cases hc : b.find_left lv = none ∧ b.find_right rv = none
  · rw [(insert_check_abs b (invT_of_wf hwf) lv rv).mp hc, if_neg (by simp)]
    simp [bimap.insert, if_pos hc]
  · have hcond : ((absL b).any (fun p => p.1 == lv) || (absL b).any (fun p => p.2 == rv)) = true := by
      rcases Bool.eq_false_or_eq_true ((absL b).any (fun p => p.1 == lv)
          || (absL b).any (fun p => p.2 == rv)) with h1 | h1
      · exact h1
      · exact absurd ((insert_check_abs b (invT_of_wf hwf) lv rv).mpr h1) hc
    rw [hcond, if_pos rfl]
    simp [bimap.insert, if_neg hc]

/-- The dereferenced result of `find_left` is the first (unique) pair of the
L-order list with the searched left key. -/
theorem find_left_det (b : bimap) (h : InvT b) (x : Nat) :
    (b.find_left x).map (fun n => (n.lKey, n.rKey)) = (absL b).find? (fun p => p.1 == x) := by
  rw [bimap.find_left, Treap.find_eq keyL x b.left_map h.bstL, absL, List.find?_map]
  rfl

/-- The dereferenced result of `find_right` on the R-order list. -/
theorem find_right_det (b : bimap) (h : InvT b) (x : Nat) :
    (b.find_right x).map (fun n => (n.rKey, n.lKey)) = (absR b).find? (fun p => p.1 == x) := by
  rw [bimap.find_right, Treap.find_eq keyR x b.right_map h.bstR, absR, List.find?_map]
  rfl

/-- The Bool returned by `erase_left(key)` is determined by the pair list. -/
theorem erase_left_bool_det (b : bimap) (h : InvT b) (x : Nat) :
    (b.erase_left x).2 = (absL b).any (fun p => p.1 == x) := by
  cases hf : b.find_left x with
  | none =>
    have h1 := (Treap.find_eq_none_iff keyL x b.left_map h.bstL).mp hf
    have h2 : (absL b).any (fun p => p.1 == x) = false := by
      rw [List.any_eq_false]
      rintro p hp
      obtain ⟨e, he, rfl⟩ := List.mem_map.mp hp
      simpa using h1 e he
    rw [h2]
    simp [bimap.erase_left, hf]
  | some n =>
    obtain ⟨hmem, hkey⟩ := Treap.find_eq_some h.bstL hf
    have h2 : (absL b).any (fun p => p.1 == x) = true := by
      rw [List.any_eq_true]
      refine ⟨(n.lKey, n.rKey), List.mem_map.mpr ⟨n, hmem, rfl⟩, ?_⟩
      simpa using hkey
    rw [h2]
    simp [bimap.erase_left, hf]

theorem erase_right_bool_det (b : bimap) (h : InvT b) (x : Nat) :
    (b.erase_right x).2 = (absR b).any (fun p => p.1 == x) := by
  cases hf : b.find_right x with
  | none =>
    have h1 := (Treap.find_eq_none_iff keyR x b.right_map h.bstR).mp hf
    have h2 : (absR b).any (fun p => p.1 == x) = false := by
      rw [List.any_eq_false]
      rintro p hp
      obtain ⟨e, he, rfl⟩ := List.mem_map.mp hp
      simpa using h1 e he
    rw [h2]
    simp [bimap.erase_right, hf]
  | some n =>
    obtain ⟨hmem, hkey⟩ := Treap.find_eq_some h.bstR hf
    have h2 : (absR b).any (fun p => p.1 == x) = true := by
      rw [List.any_eq_true]
      refine ⟨(n.rKey, n.lKey), List.mem_map.mpr ⟨n, hmem, rfl⟩, ?_⟩
      simpa using hkey
    rw [h2]
    simp [bimap.erase_right, hf]

/-! ## Claim C9 -/

/-- C9: `lower_bound` returns the first element in iteration order whose key
is not less than the searched key, `upper_bound` the first whose key is
strictly greater, and the end iterator (`none`) when no element qualifies —
on both sides. -/
theorem bound_spec (b : bimap) (hwf : WF b) (x : Nat) :
    (b.lower_bound_left x).map keyL = (lKeys b).find? (fun k => ¬ k < x) ∧
    (b.upper_bound_left x).map keyL = (lKeys b).find? (fun k => x < k) ∧
    (b.lower_bound_right x).map keyR = (rKeys b).find? (fun k => ¬ k < x) ∧
    (b.upper_bound_right x).map keyR = (rKeys b).find? (fun k => x < k) := by
  refine ⟨?_, ?_, ?_, ?_⟩
  · rw [bimap.lower_bound_left, Treap.lowerBound_eq keyL x b.left_map hwf.bstL,
      lKeys, List.find?_map]
    rfl
  · rw [bimap.upper_bound_left, Treap.upperBound_eq keyL x b.left_map hwf.bstL,
      lKeys, List.find?_map]
    rfl
  · rw [bimap.lower_bound_right, Treap.lowerBound_eq keyR x b.right_map hwf.bstR,
      rKeys, List.find?_map]
    rfl
  · rw [bimap.upper_bound_right, Treap.upperBound_eq keyR x b.right_map hwf.bstR,
      rKeys, List.find?_map]
    rfl

/-- Witness for C9, the claim's concrete scenario: on left keys `{1,3,5}`,
`lower_bound_left(2)` lands on `3` and `upper_bound_left(3)` lands on `5`. -/
theorem bound_spec_witness :
    (((((emptyBimap.insert 1 10 5 5).1.insert 3 30 4 6).1.insert 5 50 3 7).1.lower_bound_left 2).map
      keyL = some 3) ∧
    (((((emptyBimap.insert 1 10 5 5).1.insert 3 30 4 6).1.insert 5 50 3 7).1.upper_bound_left 3).map
      keyL = some 5) := by
  have hwf3 : WF (((emptyBimap.insert 1 10 5 5).1.insert 3 30 4 6).1.insert 5 50 3 7).1 :=
    wf_insert _ (wf_insert _ (wf_insert _ wf_empty 1 10 5 5) 3 30 4 6) 5 50 3 7
  have h2 := bound_spec _ hwf3 2
  have h3 := bound_spec _ hwf3 3
  constructor
  · rw [h2.1]
    decide
  · rw [h3.2.1]
    decide

/-! ## Claim C8 -/

/-- The lockstep comparison on the dereferenced pairs. -/
def lockstepP : List (Nat × Nat) → List (Nat × Nat) → Bool
  | p :: ps, q :: qs => ((p.1 == q.1) && (p.2 == q.2)) && lockstepP ps qs
  | _, _ => true

theorem lockstep_abs (a b : bimap) :
    lockstep a.left_map.toList b.left_map.toList = lockstepP (absL a) (absL b) := by
  rw [absL, absL]
  generalize a.left_map.toList = l1
  generalize b.left_map.toList = l2
  induction l1 generalizing l2 with
  | nil => cases l2 <;> rfl
  | cons x xs ih =>
    cases l2 with
    | nil => rfl
    | cons y ys =>
      simp only [List.map_cons, lockstep, lockstepP, ih]

theorem lockstepP_iff_zip (s t : List (Nat × Nat)) :
    lockstepP s t = true ↔ ∀ pq ∈ s.zip t, pq.1 = pq.2 := by
  induction s generalizing t with
  | nil => cases t <;> simp [lockstepP]
  | cons p ps ih =>
    cases t with
    | nil => simp [lockstepP]
    | cons q qs =>
      rw [lockstepP, List.zip_cons_cons]
      simp only [Bool.and_eq_true, beq_iff_eq, List.mem_cons]
      constructor
      · rintro ⟨⟨h1, h2⟩, h3⟩ pq hpq
        rcases hpq with rfl | hpq
        · exact Prod.ext h1 h2
        · exact (ih qs).mp h3 pq hpq
      · intro h
        have hpq := h (p, q) (Or.inl rfl)
        refine ⟨⟨congrArg Prod.fst hpq, congrArg Prod.snd hpq⟩, ?_⟩
        exact (ih qs).mpr (fun pq hpq2 => h pq (Or.inr hpq2))

theorem lockstepP_refl (s : List (Nat × Nat)) : lockstepP s s = true := by
  induction s with
  | nil => rfl
  | cons p ps ih => simp [lockstepP, ih]

theorem wf_insertFromList (prs : Nat → Nat × Nat) (i : Nat) (ps : List (Nat × Nat))
    (b : bimap) (h : WF b) : WF (insertFromList prs i ps b) := by
  induction ps generalizing i b with
  | nil => simpa [insertFromList] using h
  | cons p rest ih =>
    rw [insertFromList]
    exact ih (i + 1) _ (wf_insert b h p.1 p.2 (prs i).1 (prs i).2)

/-- The abstract effect of reinserting a pair list. -/
def absFold : List (Nat × Nat) → List (Nat × Nat) → List (Nat × Nat)
  | [], s => s
  | p :: rest, s => absFold rest (absInsert p.1 p.2 s)

theorem absL_insertFromList_det (prs : Nat → Nat × Nat) (i : Nat) (ps : List (Nat × Nat))
    (b : bimap) (hwf : WF b) :
    absL (insertFromList prs i ps b) = absFold ps (absL b) := by
  induction ps generalizing i b with
  | nil => rfl
  | cons p rest ih =>
    rw [insertFromList, absFold, ← absL_insert_det b hwf p.1 p.2 (prs i).1 (prs i).2]
    exact ih (i + 1) _ (wf_insert b hwf p.1 p.2 (prs i).1 (prs i).2)

/-- C8: `operator==` holds exactly when the sizes agree and the L-ordered
pair sequences agree position by position on both components (a positional
comparison over the common prefix, not a set comparison); consequently two
stores built by inserting the same pairs in the same order — whatever random
priorities were drawn — compare equal. -/
theorem eq_spec :
    (∀ a b : bimap,
      bimap.beq a b = true ↔
        (a.size = b.size ∧ ∀ pq ∈ (absL a).zip (absL b), pq.1 = pq.2)) ∧
    (∀ ps : List (Nat × Nat), ∀ prs prs' : Nat → Nat × Nat,
      bimap.beq (insertFromList prs 0 ps emptyBimap)
        (insertFromList prs' 0 ps emptyBimap) = true) := by
  constructor
  · intro a b
    rw [bimap.beq]
    by_cases hsz : a.size = b.size
    · rw [if_neg (by omega), lockstep_abs, lockstepP_iff_zip]
      constructor
      · intro h
        exact ⟨hsz, h⟩
      · intro h
        exact h.2
    · rw [if_pos hsz]
      simp [hsz]
  · intro ps prs prs'
    have hwf1 : WF (insertFromList prs 0 ps emptyBimap) :=
      wf_insertFromList prs 0 ps emptyBimap wf_empty
    have hwf2 : WF (insertFromList prs' 0 ps emptyBimap) :=
      wf_insertFromList prs' 0 ps emptyBimap wf_empty
    have habs : absL (insertFromList prs 0 ps emptyBimap)
        = absL (insertFromList prs' 0 ps emptyBimap) := by
      rw [absL_insertFromList_det prs 0 ps emptyBimap wf_empty,
        absL_insertFromList_det prs' 0 ps emptyBimap wf_empty]
    have hsz : (insertFromList prs 0 ps emptyBimap).size
        = (insertFromList prs' 0 ps emptyBimap).size := by
      rw [bimap.size, bimap.size, count_eq_abs _ hwf1, count_eq_abs _ hwf2, habs]
    rw [bimap.beq, if_neg (by omega), lockstep_abs, habs]
    exact lockstepP_refl _

/-- Witness for C8: two stores built from the same pair sequence with
different priority draws compare equal. -/
theorem eq_spec_witness :
    bimap.beq (insertFromList (fun _ => (1, 1)) 0 [(1, 2), (3, 4)] emptyBimap)
      (insertFromList (fun i => (5 + i, 9 - i)) 0 [(1, 2), (3, 4)] emptyBimap) = true :=
  eq_spec.2 [(1, 2), (3, 4)] (fun _ => (1, 1)) (fun i => (5 + i, 9 - i))

/-! ## Claim C10: determinism with respect to the random priorities -/

theorem lower_left_det (b : bimap) (h : InvT b) (x : Nat) :
    (b.lower_bound_left x).map (fun n => (n.lKey, n.rKey))
      = (absL b).find? (fun p => ¬ p.1 < x) := by
  rw [bimap.lower_bound_left, Treap.lowerBound_eq keyL x b.left_map h.bstL, absL,
    List.find?_map]
  rfl

theorem upper_left_det (b : bimap) (h : InvT b) (x : Nat) :
    (b.upper_bound_left x).map (fun n => (n.lKey, n.rKey))
      = (absL b).find? (fun p => x < p.1) := by
  rw [bimap.upper_bound_left, Treap.upperBound_eq keyL x b.left_map h.bstL, absL,
    List.find?_map]
  rfl

theorem lower_right_det (b : bimap) (h : InvT b) (x : Nat) :
    (b.lower_bound_right x).map (fun n => (n.rKey, n.lKey))
      = (absR b).find? (fun p => ¬ p.1 < x) := by
  rw [bimap.lower_bound_right, Treap.lowerBound_eq keyR x b.right_map h.bstR, absR,
    List.find?_map]
  rfl

theorem upper_right_det (b : bimap) (h : InvT b) (x : Nat) :
    (b.upper_bound_right x).map (fun n => (n.rKey, n.lKey))
      = (absR b).find? (fun p => x < p.1) := by
  rw [bimap.upper_bound_right, Treap.upperBound_eq keyR x b.right_map h.bstR, absR,
    List.find?_map]
  rfl

theorem at_left_det (b : bimap) (h : InvT b) (x : Nat) :
    b.at_left x = ((absL b).find? (fun p => p.1 == x)).map Prod.snd := by
  rw [← find_left_det b h x, bimap.at_left, Option.map_map]
  rfl

theorem at_right_det (b : bimap) (h : InvT b) (x : Nat) :
    b.at_right x = ((absR b).find? (fun p => p.1 == x)).map Prod.snd := by
  rw [← find_right_det b h x, bimap.at_right, Option.map_map]
  rfl

/-- The observable operations of a run: the mutators and the lookups of the
public interface. -/
inductive Op where
  | opInsert (lv rv : Nat)
  | opEraseLeft (x : Nat)
  | opEraseRight (x : Nat)
  | opAtLeftDef (x : Nat)
  | opAtRightDef (x : Nat)
  | opFindLeft (x : Nat)
  | opFindRight (x : Nat)
  | opAtLeft (x : Nat)
  | opAtRight (x : Nat)
  | opLowerLeft (x : Nat)
  | opUpperLeft (x : Nat)
  | opLowerRight (x : Nat)
  | opUpperRight (x : Nat)
  | opSize

/-- What a caller can see of one operation's result: a dereferenced iterator
(`*it`, `*it.flip()`; `none` for an end iterator), a Bool, a value
(`none` = the thrown `std::out_of_range` / an undefined dereference), or a
count. -/
inductive Out where
  | iter (p : Option (Nat × Nat))
  | flag (v : Bool)
  | val (v : Option Nat)
  | num (n : Nat)
deriving DecidableEq

/-- One step of a run; `pq` is the pair of random priorities drawn if the
operation allocates a node. -/
def step (o : Op) (pq : Nat × Nat) (b : bimap) : bimap × Out :=
  match o with
  | .opInsert lv rv =>
    let r := b.insert lv rv pq.1 pq.2
    (r.1, .iter (r.2.map (fun n => (n.lKey, n.rKey))))
  | .opEraseLeft x =>
    let r := b.erase_left x
    (r.1, .flag r.2)
  | .opEraseRight x =>
    let r := b.erase_right x
    (r.1, .flag r.2)
  | .opAtLeftDef x =>
    let r := b.at_left_or_default x pq.1 pq.2
    (r.1, .val r.2)
  | .opAtRightDef x =>
    let r := b.at_right_or_default x pq.1 pq.2
    (r.1, .val r.2)
  | .opFindLeft x => (b, .iter ((b.find_left x).map (fun n => (n.lKey, n.rKey))))
  | .opFindRight x => (b, .iter ((b.find_right x).map (fun n => (n.rKey, n.lKey))))
  | .opAtLeft x => (b, .val (b.at_left x))
  | .opAtRight x => (b, .val (b.at_right x))
  | .opLowerLeft x => (b, .iter ((b.lower_bound_left x).map (fun n => (n.lKey, n.rKey))))
  | .opUpperLeft x => (b, .iter ((b.upper_bound_left x).map (fun n => (n.lKey, n.rKey))))
  | .opLowerRight x => (b, .iter ((b.lower_bound_right x).map (fun n => (n.rKey, n.lKey))))
  | .opUpperRight x => (b, .iter ((b.upper_bound_right x).map (fun n => (n.rKey, n.lKey))))
  | .opSize => (b, .num b.size)

/-- Run a fixed operation sequence, drawing the priorities `prs i` at the
i-th step, collecting every observable output. -/
def run (ops : List Op) (prs : Nat → Nat × Nat) (i : Nat) (b : bimap) : bimap × List Out :=
  match ops with
  | [] => (b, [])
  | o :: os =>
    let r := step o (prs i) b
    let rest := run os prs (i + 1) r.1
    (rest.1, r.2 :: rest.2)

/-- The priority-free counterpart of `step` on the abstract state: the
L-ordered pair list and the R-ordered (swapped) pair list. -/
def absStep (o : Op) (st : List (Nat × Nat) × List (Nat × Nat)) :
    (List (Nat × Nat) × List (Nat × Nat)) × Out :=
  match o with
  | .opInsert lv rv =>
    if st.1.any (fun p => p.1 == lv) || st.1.any (fun p => p.2 == rv) then
      (st, .iter none)
    else
      ((insertSorted (lv, rv) st.1, insertSorted (rv, lv) st.2), .iter (some (lv, rv)))
  | .opEraseLeft x =>
    ((st.1.filter (fun p => p.1 ≠ x), st.2.filter (fun p => p.2 ≠ x)),
     .flag (st.1.any (fun p => p.1 == x)))
  | .opEraseRight x =>
    ((st.1.filter (fun p => p.2 ≠ x), st.2.filter (fun p => p.1 ≠ x)),
     .flag (st.2.any (fun p => p.1 == x)))
  | .opAtLeftDef x =>
    match st.1.find? (fun p => p.1 == x) with
    | some p => (st, .val (some p.2))
    | none =>
      ((insertSorted (x, 0) (st.1.filter (fun p => p.2 ≠ 0)),
        insertSorted (0, x) (st.2.filter (fun p => p.1 ≠ 0))), .val (some 0))
  | .opAtRightDef x =>
    match st.2.find? (fun p => p.1 == x) with
    | some p => (st, .val (some p.2))
    | none =>
      ((insertSorted (0, x) (st.1.filter (fun p => p.1 ≠ 0)),
        insertSorted (x, 0) (st.2.filter (fun p => p.2 ≠ 0))), .val (some 0))
  | .opFindLeft x => (st, .iter (st.1.find? (fun p => p.1 == x)))
  | .opFindRight x => (st, .iter (st.2.find? (fun p => p.1 == x)))
  | .opAtLeft x => (st, .val ((st.1.find? (fun p => p.1 == x)).map Prod.snd))
  | .opAtRight x => (st, .val ((st.2.find? (fun p => p.1 == x)).map Prod.snd))
  | .opLowerLeft x => (st, .iter (st.1.find? (fun p => ¬ p.1 < x)))
  | .opUpperLeft x => (st, .iter (st.1.find? (fun p => x < p.1)))
  | .opLowerRight x => (st, .iter (st.2.find? (fun p => ¬ p.1 < x)))
  | .opUpperRight x => (st, .iter (st.2.find? (fun p => x < p.1)))
  | .opSize => (st, .num st.1.length)

def absRun : List Op → (List (Nat × Nat) × List (Nat × Nat)) →
    (List (Nat × Nat) × List (Nat × Nat)) × List Out
  | [], st => (st, [])
  | o :: os, st =>
    let r := absStep o st
    let rest := absRun os r.1
    (rest.1, r.2 :: rest.2)

/-- One-step simulation: a concrete step from a well-formed state tracks the
priority-free abstract step, and the emitted output is the abstract one. -/
theorem step_sim (o : Op) (pq : Nat × Nat) (b : bimap) (s1 s2 : List (Nat × Nat))
    (hwf : WF b) (h1 : absL b = s1) (h2 : absR b = s2) :
    WF (step o pq b).1 ∧
    absL (step o pq b).1 = (absStep o (s1, s2)).1.1 ∧
    absR (step o pq b).1 = (absStep o (s1, s2)).1.2 ∧
    (step o pq b).2 = (absStep o (s1, s2)).2 := by
  subst h1
  subst h2
  cases o with
  | opInsert lv rv =>
    have hdet1 := absL_insert_det b hwf lv rv pq.1 pq.2
    have hdet2 := absR_insert_det b hwf lv rv pq.1 pq.2
    have hdet3 := insert_out_det b hwf lv rv pq.1 pq.2
    refine ⟨wf_insert b hwf lv rv pq.1 pq.2, ?_, ?_, ?_⟩
    · simp only [step]
      rw [hdet1]
      cases hcb : ((absL b).any (fun p => p.1 == lv) || (absL b).any (fun p => p.2 == rv)) with
      | false => simp [absStep, absInsert, hcb]
      | true => simp [absStep, absInsert, hcb]
    · simp only [step]
      rw [hdet2]
      cases hcb : ((absL b).any (fun p => p.1 == lv) || (absL b).any (fun p => p.2 == rv)) with
      | false => simp [absStep, hcb]
      | true => simp [absStep, hcb]
    · simp only [step]
      rw [hdet3]
      cases hcb : ((absL b).any (fun p => p.1 == lv) || (absL b).any (fun p => p.2 == rv)) with
      | false => simp [absStep, hcb]
      | true => simp [absStep, hcb]
  | opEraseLeft x =>
    refine ⟨wf_erase_left_key b hwf x, ?_, ?_, ?_⟩
    · simp only [step, absStep]
      exact absL_erase_left_key b hwf x
    · simp only [step, absStep]
      exact absR_erase_left_key b hwf x
    · simp only [step, absStep]
      rw [erase_left_bool_det b (invT_of_wf hwf) x]
  | opEraseRight x =>
    refine ⟨wf_erase_right_key b hwf x, ?_, ?_, ?_⟩
    · simp only [step, absStep]
      exact absL_erase_right_key b hwf x
    · simp only [step, absStep]
      exact absR_erase_right_key b hwf x
    · simp only [step, absStep]
      rw [erase_right_bool_det b (invT_of_wf hwf) x]
  | opAtLeftDef x =>
    cases hf : b.find_left x with
    | some n =>
      have hfind : (absL b).find? (fun p => p.1 == x) = some (n.lKey, n.rKey) := by
        rw [← find_left_det b (invT_of_wf hwf) x, hf]
        rfl
      have hstep : step (Op.opAtLeftDef x) pq b = (b, Out.val (some n.rKey)) := by
        simp [step, bimap.at_left_or_default, hf]
      rw [hstep]
      simp [absStep, hfind]
      exact hwf
    | none =>
      have hfind : (absL b).find? (fun p => p.1 == x) = none := by
        rw [← find_left_det b (invT_of_wf hwf) x, hf]
        rfl
      have hwf1 : WF (b.erase_right 0).1 := wf_erase_right_key b hwf 0
      have hc : (b.erase_right 0).1.find_left x = none ∧
          (b.erase_right 0).1.find_right 0 = none :=
        ⟨find_left_none_after_erase_right b hwf x 0 hf,
         find_right_after_erase_right b hwf 0⟩
      have hcondF := (insert_check_abs (b.erase_right 0).1 (invT_of_wf hwf1) x 0).mp hc
      have hstep : step (Op.opAtLeftDef x) pq b
          = (((b.erase_right 0).1.insert x 0 pq.1 pq.2).1,
             Out.val ((((b.erase_right 0).1.insert x 0 pq.1 pq.2).2).map keyR)) := by
        simp [step, bimap.at_left_or_default, hf]
      rw [hstep]
      refine ⟨wf_insert _ hwf1 x 0 pq.1 pq.2, ?_, ?_, ?_⟩
      · rw [absL_insert_det _ hwf1 x 0 pq.1 pq.2, absInsert, hcondF]
        simp only [absStep, hfind]
        rw [absL_erase_right_key b hwf 0]
        simp
      · rw [absR_insert_det _ hwf1 x 0 pq.1 pq.2, hcondF]
        simp only [absStep, hfind]
        rw [absR_erase_right_key b hwf 0]
        simp
      · have hout : (((b.erase_right 0).1.insert x 0 pq.1 pq.2).2).map keyR = some 0 := by
          have hmm : ((((b.erase_right 0).1.insert x 0 pq.1 pq.2).2).map
              (fun n => (n.lKey, n.rKey))).map Prod.snd
              = (((b.erase_right 0).1.insert x 0 pq.1 pq.2).2).map keyR := by
            rw [Option.map_map]
            rfl
          rw [← hmm, insert_out_det _ hwf1 x 0 pq.1 pq.2, hcondF]
          rfl
        rw [hout]
        simp [absStep, hfind]
  | opAtRightDef x =>
    cases hf : b.find_right x with
    | some n =>
      have hfind : (absR b).find? (fun p => p.1 == x) = some (n.rKey, n.lKey) := by
        rw [← find_right_det b (invT_of_wf hwf) x, hf]
        rfl
      have hstep : step (Op.opAtRightDef x) pq b = (b, Out.val (some n.lKey)) := by
        simp [step, bimap.at_right_or_default, hf]
      rw [hstep]
      simp [absStep, hfind]
      exact hwf
    | none =>
      have hfind : (absR b).find? (fun p => p.1 == x) = none := by
        rw [← find_right_det b (invT_of_wf hwf) x, hf]
        rfl
      have hwf1 : WF (b.erase_left 0).1 := wf_erase_left_key b hwf 0
      have hc : (b.erase_left 0).1.find_left 0 = none ∧
          (b.erase_left 0).1.find_right x = none :=
        ⟨find_left_after_erase_left b hwf 0,
         find_right_none_after_erase_left b hwf x 0 hf⟩
      have hcondF := (insert_check_abs (b.erase_left 0).1 (invT_of_wf hwf1) 0 x).mp hc
      have hstep : step (Op.opAtRightDef x) pq b
          = (((b.erase_left 0).1.insert 0 x pq.1 pq.2).1,
             Out.val ((((b.erase_left 0).1.insert 0 x pq.1 pq.2).2).map keyL)) := by
        simp [step, bimap.at_right_or_default, hf]
      rw [hstep]
      refine ⟨wf_insert _ hwf1 0 x pq.1 pq.2, ?_, ?_, ?_⟩
      · rw [absL_insert_det _ hwf1 0 x pq.1 pq.2, absInsert, hcondF]
        simp only [absStep, hfind]
        rw [absL_erase_left_key b hwf 0]
        simp
      · rw [absR_insert_det _ hwf1 0 x pq.1 pq.2, hcondF]
        simp only [absStep, hfind]
        rw [absR_erase_left_key b hwf 0]
        simp
      · have hout : (((b.erase_left 0).1.insert 0 x pq.1 pq.2).2).map keyL = some 0 := by
          have hmm : ((((b.erase_left 0).1.insert 0 x pq.1 pq.2).2).map
              (fun n => (n.lKey, n.rKey))).map Prod.fst
              = (((b.erase_left 0).1.insert 0 x pq.1 pq.2).2).map keyL := by
            rw [Option.map_map]
            rfl
          rw [← hmm, insert_out_det _ hwf1 0 x pq.1 pq.2, hcondF]
          rfl
        rw [hout]
        simp [absStep, hfind]
  | opFindLeft x =>
    refine ⟨hwf, rfl, rfl, ?_⟩
    simp only [step, absStep]
    rw [find_left_det b (invT_of_wf hwf) x]
  | opFindRight x =>
    refine ⟨hwf, rfl, rfl, ?_⟩
    simp only [step, absStep]
    rw [find_right_det b (invT_of_wf hwf) x]
  | opAtLeft x =>
    refine ⟨hwf, rfl, rfl, ?_⟩
    simp only [step, absStep]
    rw [at_left_det b (invT_of_wf hwf) x]
  | opAtRight x =>
    refine ⟨hwf, rfl, rfl, ?_⟩
    simp only [step, absStep]
    rw [at_right_det b (invT_of_wf hwf) x]
  | opLowerLeft x =>
    refine ⟨hwf, rfl, rfl, ?_⟩
    simp only [step, absStep]
    rw [lower_left_det b (invT_of_wf hwf) x]
  | opUpperLeft x =>
    refine ⟨hwf, rfl, rfl, ?_⟩
    simp only [step, absStep]
    rw [upper_left_det b (invT_of_wf hwf) x]
  | opLowerRight x =>
    refine ⟨hwf, rfl, rfl, ?_⟩
    simp only [step, absStep]
    rw [lower_right_det b (invT_of_wf hwf) x]
  | opUpperRight x =>
    refine ⟨hwf, rfl, rfl, ?_⟩
    simp only [step, absStep]
    rw [upper_right_det b (invT_of_wf hwf) x]
  | opSize =>
    refine ⟨hwf, rfl, rfl, ?_⟩
    simp only [step, absStep]
    rw [bimap.size, count_eq_abs b hwf, absL]

/-- Whole-run simulation. -/
theorem run_sim (ops : List Op) (prs : Nat → Nat × Nat) (i : Nat) (b : bimap)
    (s1 s2 : List (Nat × Nat)) (hwf : WF b) (h1 : absL b = s1) (h2 : absR b = s2) :
    WF (run ops prs i b).1 ∧
    absL (run ops prs i b).1 = (absRun ops (s1, s2)).1.1 ∧
    absR (run ops prs i b).1 = (absRun ops (s1, s2)).1.2 ∧
    (run ops prs i b).2 = (absRun ops (s1, s2)).2 := by
  induction ops generalizing i b s1 s2 with
  | nil =>
    subst h1
    subst h2
    exact ⟨hwf, rfl, rfl, rfl⟩
  | cons o os ih =>
    obtain ⟨hw, ha1, ha2, hout⟩ := step_sim o (prs i) b s1 s2 hwf h1 h2
    obtain ⟨hw2, hb1, hb2, houts⟩ :=
      ih (i + 1) (step o (prs i) b).1 (absStep o (s1, s2)).1.1 (absStep o (s1, s2)).1.2
        hw ha1 ha2
    refine ⟨?_, ?_, ?_, ?_⟩
    · simpa [run] using hw2
    · simp only [run, absRun]
      exact hb1
    · simp only [run, absRun]
      exact hb2
    · simp only [run, absRun]
      rw [hout, houts]

/-- `operator==` is determined by the sizes and L-order pair lists of its
operands. -/
theorem beq_congr (a a' c c' : bimap) (ha : a.size = a'.size) (hc : c.size = c'.size)
    (h1 : absL a = absL a') (h2 : absL c = absL c') :
    bimap.beq a c = bimap.beq a' c' := by
  rw [bimap.beq, bimap.beq, lockstep_abs, lockstep_abs, h1, h2, ha, hc]

/-- C10: two runs of the same operation sequence, whatever random priorities
each draws, produce the same outputs at every step, the same key sequences on
both sides (with the same pairings), the same size, and final states that
compare `==` identically against any other deterministically built store —
the priorities influence only the internal tree shape. -/
theorem determinism (ops : List Op) (prs1 prs2 : Nat → Nat × Nat) :
    (run ops prs1 0 emptyBimap).2 = (run ops prs2 0 emptyBimap).2 ∧
    absL (run ops prs1 0 emptyBimap).1 = absL (run ops prs2 0 emptyBimap).1 ∧
    absR (run ops prs1 0 emptyBimap).1 = absR (run ops prs2 0 emptyBimap).1 ∧
    lKeys (run ops prs1 0 emptyBimap).1 = lKeys (run ops prs2 0 emptyBimap).1 ∧
    rKeys (run ops prs1 0 emptyBimap).1 = rKeys (run ops prs2 0 emptyBimap).1 ∧
    (run ops prs1 0 emptyBimap).1.size = (run ops prs2 0 emptyBimap).1.size ∧
    (∀ ops' : List Op, ∀ qs1 qs2 : Nat → Nat × Nat,
      bimap.beq (run ops prs1 0 emptyBimap).1 (run ops' qs1 0 emptyBimap).1
        = bimap.beq (run ops prs2 0 emptyBimap).1 (run ops' qs2 0 emptyBimap).1) := by
  obtain ⟨hw1, ha1, hb1, ho1⟩ := run_sim ops prs1 0 emptyBimap [] [] wf_empty rfl rfl
  obtain ⟨hw2, ha2, hb2, ho2⟩ := run_sim ops prs2 0 emptyBimap [] [] wf_empty rfl rfl
  have habsL : absL (run ops prs1 0 emptyBimap).1 = absL (run ops prs2 0 emptyBimap).1 := by
    rw [ha1, ha2]
  have habsR : absR (run ops prs1 0 emptyBimap).1 = absR (run ops prs2 0 emptyBimap).1 := by
    rw [hb1, hb2]
  have hsz : (run ops prs1 0 emptyBimap).1.size = (run ops prs2 0 emptyBimap).1.size := by
    rw [bimap.size, bimap.size, count_eq_abs _ hw1, count_eq_abs _ hw2, habsL]
  refine ⟨by rw [ho1, ho2], habsL, habsR, ?_, ?_, hsz, ?_⟩
  · rw [lKeys_eq_abs, lKeys_eq_abs, habsL]
  · rw [rKeys_eq_abs, rKeys_eq_abs, habsR]
  · intro ops' qs1 qs2
    obtain ⟨hw1', ha1', -, -⟩ := run_sim ops' qs1 0 emptyBimap [] [] wf_empty rfl rfl
    obtain ⟨hw2', ha2', -, -⟩ := run_sim ops' qs2 0 emptyBimap [] [] wf_empty rfl rfl
    apply beq_congr
    · exact hsz
    · rw [bimap.size, bimap.size, count_eq_abs _ hw1', count_eq_abs _ hw2', ha1', ha2']
    · exact habsL
    · rw [ha1', ha2']
